import Mathlib

/-!
Verification of the crawl-session controller and fetch pipeline of the
aboova-firstnat-jobscraping repository (src/Linkedin_Large.py,
src/Linkedin_Small.py, src/Indeed.py).

The Python sources are shallowly embedded below.  Pure helpers become Lean
functions over `String` / `List Char`; the stateful controller loops become
recursive functions over explicit event lists that stand for the observations
the live agent would deliver; file writes become an explicit operation trace
over a file-system state.  Percent-encoding of the URL helpers is modelled
code-point-wise, which is byte-exact for ASCII strings (every URL handled by
this repository is ASCII).  Domain text cleanup (salary regex parsing,
location splitting) is out of scope of the controller spec and is carried as
opaque accessor output where a record field needs it.
-/

/-! ## File-system write traces (Linkedin_Large.save_results line 623-627,
Indeed.atomic_write_json line 377-383) -/

/-- Output location used by `MultiCompanyScraper.save_results` in
Linkedin_Large.py. -/
def out_path_large : String := "json_output/linkedin_all_large_companies_jobs.json"

/-- One primitive file operation: `openTrunc` is `open(path, "w")` (truncates
the file to empty on open), `writeAll` appends serialized data to an already
opened file, `replace` is `os.replace(src, dst)` (atomic rename). -/
inductive WriteOp where
  | openTrunc (path : String)
  | writeAll (path : String) (data : String)
  | replace (src : String) (dst : String)
deriving DecidableEq

/-- File-system contents: `none` means the path does not exist. -/
def FsState : Type := String → Option String

/-- Effect of one operation on the file system. -/
def applyOp (fs : FsState) : WriteOp → FsState
  | .openTrunc p => fun q => if q = p then some "" else fs q
  | .writeAll p d => fun q => if q = p then some (((fs p).getD "") ++ d) else fs q
  | .replace a b => fun q => if q = b then fs a else if q = a then none else fs q

/-- Run a trace of operations in order. -/
def runOps (fs : FsState) : List WriteOp → FsState
  | [] => fs
  | op :: rest => runOps (applyOp fs op) rest

/-- Operation trace of `save_results` (Linkedin_Large.py line 623-627):
`with open(json_path, "w") as f: json.dump(self.jobs, f, ...)` — it opens the
real output path directly for writing (truncating it) and then writes the
serialized record list into it.  `content` is the serialized form of
`self.jobs`. -/
def save_results_ops (content : String) : List WriteOp :=
  [.openTrunc out_path_large, .writeAll out_path_large content]

/-- Operation trace of `atomic_write_json` (Indeed.py line 377-383): writes the
serialized data to `path + ".tmp"` and then atomically replaces `path` with the
temporary file via `os.replace`. -/
def atomic_write_json_ops (path : String) (content : String) : List WriteOp :=
  [.openTrunc (path ++ ".tmp"), .writeAll (path ++ ".tmp") content,
   .replace (path ++ ".tmp") path]

/-- Crash-safety of a write trace for a reader of `path`: at every interruption
point (every prefix of the trace), a reader of `path` observes either the old
complete content or the new complete content — never an absent or truncated
file. -/
def observesOldOrNew (ops : List WriteOp) (path old new : String) : Prop :=
  ∀ fs : FsState, fs path = some old →
    ∀ k : Nat, runOps fs (ops.take k) path = some old ∨
               runOps fs (ops.take k) path = some new

/-! ## ASCII string helpers shared by the embeddings -/

/-- ASCII lowercase of a string, as Python `str.lower()` on the ASCII strings
this code handles. -/
def asciiLower (s : String) : String := String.mk (s.data.map Char.toLower)

/-- Python `str.strip()` on ASCII text: drop whitespace from both ends
(char-level, so it evaluates by kernel reduction). -/
def pyStrip (s : String) : String :=
  String.mk (((s.data.dropWhile Char.isWhitespace).reverse.dropWhile Char.isWhitespace).reverse)

/-- Whether `pat` occurs as a contiguous substring, as Python `pat in s`. -/
def listHasSub (pat : List Char) : List Char → Bool
  | [] => pat.isEmpty
  | c :: rest => pat.isPrefixOf (c :: rest) || listHasSub pat rest

/-- Python `pat in s` on strings. -/
def containsSub (pat s : String) : Bool := listHasSub pat.data s.data

/-! ## Termination decision (Linkedin_Large.scrape_single_url line 723-732 and
_wait_for_results_or_end line 351-373) -/

/-- The controller's end-of-results decision for one page.  The loop breaks
when `_wait_for_results_or_end` reports the explicit empty-results marker
(line 707-709), or when the page signature is non-empty and equals the previous
page's signature (`if sig and sig == prev_sig`, line 729-731).  `prev` is
`prev_sig`, which is `None` before the first page. -/
def hasEnded (prev : Option (List String)) (cur : List String) (marker : Bool) : Bool :=
  marker || (!cur.isEmpty && prev == some cur)

/-! ## Job cards and page signatures (Linkedin_Large.py line 411-449) -/

/-- A rendered job card: the two candidate id attributes
(`data-occludable-job-id`, `data-job-id`) and the card's visible text. -/
structure Card where
  occludableJobId : Option String
  dataJobId : Option String
  text : String
deriving DecidableEq

/-- The digit check of `_get_listing_anchor_id`:
`if v and v.strip().isdigit(): return v.strip()`. -/
def anchorAttrOk (v : String) : Option String :=
  let t := pyStrip v
  if v ≠ "" ∧ t ≠ "" ∧ t.data.all Char.isDigit then some t else none

/-- `_get_listing_anchor_id` (line 411-419): first of the two id attributes
that is present and all digits after stripping. -/
def get_listing_anchor_id (c : Card) : Option String :=
  match c.occludableJobId.bind anchorAttrOk with
  | some t => some t
  | none => c.dataJobId.bind anchorAttrOk

/-- `_is_promoted_card` (line 421-426): the card text, lowercased, contains
"promoted" or "sponsored". -/
def is_promoted_card (c : Card) : Bool :=
  containsSub "promoted" (asciiLower c.text) || containsSub "sponsored" (asciiLower c.text)

/-- The card-scanning loop inside `_page_signature` (line 432-447): walk the
cards in rendered order, optionally skipping promoted ones, appending each
valid anchor id, and stop as soon as `n` ids have been collected (the
`if len(ids) >= n: break` check runs on every non-skipped card). -/
def sigCollect (skipPromoted : Bool) (n : Nat) : List Card → List String → List String
  | [], ids => ids
  | c :: rest, ids =>
    if skipPromoted && is_promoted_card c then sigCollect skipPromoted n rest ids
    else
      let ids2 := match get_listing_anchor_id c with
        | some jid => ids ++ [jid]
        | none => ids
      if n ≤ ids2.length then ids2 else sigCollect skipPromoted n rest ids2

/-- `_page_signature` (line 428-449): collect up to `n` non-promoted anchor
ids; only when that yields no id at all (`if not ids:`) fall back to a second
pass over all cards, promoted included. -/
def page_signature (cards : List Card) (n : Nat) : List String :=
  let ids := sigCollect true n cards []
  if ids.isEmpty then sigCollect false n cards [] else ids

/-- The signature computation as the specification describes it: up to `n`
non-promoted anchor ids in rendered order, and whenever fewer than `n`
non-promoted anchors exist, the partial sequence including promoted anchors as
a fallback.  Stated from the spec's words for comparison with
`page_signature`, which is taken from the source. -/
def page_signature_claimed (cards : List Card) (n : Nat) : List String :=
  let nonPromotedIds :=
    (cards.filter (fun c => !is_promoted_card c)).filterMap get_listing_anchor_id
  if n ≤ nonPromotedIds.length then nonPromotedIds.take n
  else (cards.filterMap get_listing_anchor_id).take n

/-! ## Detail extraction helpers (Linkedin_Large.py line 274-277, 468-481) -/

/-- The acceptance test of `_extract_title`:
`if t and 3 < len(t) < 200 and t.lower() != "jobs"`. -/
def titleOk (t : String) : Bool :=
  t ≠ "" && 3 < t.length && t.length < 200 && asciiLower t ≠ "jobs"

/-- `_extract_title` (line 468-481): the selector results in priority order;
the first stripped text passing the length/placeholder filter is the title,
else "N/A". -/
def extract_title : List String → String
  | [] => "N/A"
  | s :: rest =>
    let t := pyStrip s
    if titleOk t then t else extract_title rest

/-- `_job_permalink` (Linkedin_Large.py line 274-277): canonical jobs/view URL
from the job id alone. -/
def job_permalink (jobId : String) : String :=
  if jobId ≠ "" ∧ jobId ≠ "N/A" then
    "https://www.linkedin.com/jobs/view/" ++ jobId ++ "/"
  else "N/A"

/-! ## URL helpers: the `urllib.parse` operations used by
`_normalize_search_url` and `_extract_job_id_from_url` (Linkedin_Large.py
line 250-300, Linkedin_Small.py line 105-155), embedded on `List Char`. -/

/-- Split a list at the first occurrence of `c`; `none` when `c` is absent. -/
def splitFirst (c : Char) : List Char → Option (List Char × List Char)
  | [] => none
  | x :: xs =>
    if x = c then some ([], xs)
    else
      match splitFirst c xs with
      | none => none
      | some (a, b) => some (x :: a, b)

/-- Split on every occurrence of `c` (Python `str.split(c)`): always returns at
least one segment. -/
def splitOnChar (c : Char) : List Char → List (List Char)
  | [] => [[]]
  | x :: xs =>
    if x = c then [] :: splitOnChar c xs
    else
      match splitOnChar c xs with
      | [] => [[x]]
      | y :: ys => (x :: y) :: ys

/-- Join segments with the separator `c` (Python `c.join(...)`). -/
def intercalateChar (c : Char) : List (List Char) → List Char
  | [] => []
  | [x] => x
  | x :: y :: rest => x ++ c :: intercalateChar c (y :: rest)

/-- The characters `urllib.parse.quote` never encodes: ASCII letters, digits,
and `_.-~`. -/
def isSafeChar (c : Char) : Bool :=
  c.isAlphanum || c = '_' || c = '.' || c = '-' || c = '~'

/-- Uppercase hex digit of `n < 16`. -/
def hexDigitChar (n : Nat) : Char :=
  if n < 10 then Char.ofNat (48 + n) else if n < 16 then Char.ofNat (55 + n) else 'X'

def isHexDigitChar (c : Char) : Bool :=
  ('0' ≤ c && c ≤ '9') || ('A' ≤ c && c ≤ 'F') || ('a' ≤ c && c ≤ 'f')

def hexVal (c : Char) : Nat :=
  if '0' ≤ c ∧ c ≤ '9' then c.toNat - 48
  else if 'A' ≤ c ∧ c ≤ 'F' then c.toNat - 55
  else if 'a' ≤ c ∧ c ≤ 'f' then c.toNat - 87
  else 0

/-- `urllib.parse.quote_plus` on one character, modelled code-point-wise:
safe characters pass through, space becomes `+`, other code points below 256
become `%XX`.  This is byte-exact for ASCII, the character set of every URL
this repository builds; code points ≥ 256 are carried through unchanged. -/
def quotePlusChar (c : Char) : List Char :=
  if isSafeChar c then [c]
  else if c = ' ' then ['+']
  else if c.toNat < 256 then ['%', hexDigitChar (c.toNat / 16), hexDigitChar (c.toNat % 16)]
  else [c]

def quotePlusChars (s : List Char) : List Char := s.flatMap quotePlusChar

/-- The `string.replace('+', ' ')` pre-pass of `unquote_plus`. -/
def plusToSpace (s : List Char) : List Char :=
  s.map (fun c => if c = '+' then ' ' else c)

/-- The percent-decoding pass of `urllib.parse.unquote`: `%XX` (two hex
digits) decodes to the code point `XX`; a `%` not followed by two hex digits
stays literal. -/
def percentDecode : List Char → List Char
  | [] => []
  | '%' :: c1 :: c2 :: rest =>
    if isHexDigitChar c1 && isHexDigitChar c2 then
      Char.ofNat (16 * hexVal c1 + hexVal c2) :: percentDecode rest
    else '%' :: percentDecode (c1 :: c2 :: rest)
  | c :: rest => c :: percentDecode rest

/-- `urllib.parse.unquote_plus`: replace `+` by space, then percent-decode. -/
def unquotePlusChars (s : List Char) : List Char :=
  percentDecode (plusToSpace s)

/-- One `name=value` segment of a query string, with
`keep_blank_values=True`: a segment without `=` keeps its name and gets an
empty value. -/
def parseSeg (seg : List Char) : String × String :=
  match splitFirst '=' seg with
  | some (n, v) => (String.mk (unquotePlusChars n), String.mk (unquotePlusChars v))
  | none => (String.mk (unquotePlusChars seg), "")

/-- `urllib.parse.parse_qsl(query, keep_blank_values=True)`: split on `&`,
skip empty segments, split each at the first `=`, URL-decode names and
values. -/
def parse_qsl (s : String) : List (String × String) :=
  ((splitOnChar '&' s.data).filter (fun seg => !seg.isEmpty)).map parseSeg

/-- `urllib.parse.urlencode(q, doseq=True)` on string-valued pairs:
`quote_plus(k)=quote_plus(v)` joined with `&`. -/
def urlencode (pairs : List (String × String)) : String :=
  String.mk (intercalateChar '&'
    (pairs.map (fun kv => quotePlusChars kv.1.data ++ '=' :: quotePlusChars kv.2.data)))

/-- `d[k] = v` on an insertion-ordered dict: update the value in place when
the key exists, else append the binding at the end. -/
def dictInsert : List (String × String) → String → String → List (String × String)
  | [], k, v => [(k, v)]
  | (k2, v2) :: rest, k, v =>
    if k2 = k then (k2, v) :: rest else (k2, v2) :: dictInsert rest k v

/-- Python `dict(pairs)`: keys keep the position of their first occurrence and
take their last value. -/
def dictOfPairs (ps : List (String × String)) : List (String × String) :=
  ps.foldl (fun d kv => dictInsert d kv.1 kv.2) []

/-- The deny-list of `_normalize_search_url` (Linkedin_Large.py line 258-265,
identical in Linkedin_Small.py line 113-120). -/
def drop_keys : List String :=
  ["currentJobId", "originToLandingJobPostings", "origin", "trackingId", "refId", "lipi"]

/-- The deletion loop `for k in list(q.keys()): if k in drop_keys: q.pop(k)`. -/
def dropDenied (d : List (String × String)) : List (String × String) :=
  d.filter (fun kv => !(drop_keys.contains kv.1))

/-- The five components returned by `urllib.parse.urlsplit`. -/
structure UrlParts where
  scheme : List Char
  netloc : List Char
  path : List Char
  query : List Char
  fragment : List Char
deriving DecidableEq

/-- ASCII letter test (`url[0].isascii() and url[0].isalpha()`). -/
def isAsciiAlpha (c : Char) : Bool :=
  (65 ≤ c.toNat && c.toNat ≤ 90) || (97 ≤ c.toNat && c.toNat ≤ 122)

/-- ASCII lowercase of one character, as `str.lower()` acts on ASCII. -/
def asciiLowerChar (c : Char) : Char :=
  if 65 ≤ c.toNat ∧ c.toNat ≤ 90 then Char.ofNat (c.toNat + 32) else c

/-- Valid scheme prefix test of `urlsplit`: nonempty, first character an ASCII
letter, all characters letters, digits or `+-.` (`scheme_chars`). -/
def schemeCharOk (c : Char) : Bool :=
  isAsciiAlpha c || (48 ≤ c.toNat && c.toNat ≤ 57) || c = '+' || c = '-' || c = '.'

def validScheme (pre : List Char) : Bool :=
  match pre with
  | [] => false
  | c :: _ => isAsciiAlpha c && pre.all schemeCharOk

def notNetlocEnd (c : Char) : Bool := !(c = '/' || c = '?' || c = '#')

/-- The scheme-stripping stage of `urlsplit`: a valid scheme before the first
`:` is removed and lowercased. -/
def schemeSplit (u : List Char) : List Char × List Char :=
  match splitFirst ':' u with
  | some (pre, post) =>
    if validScheme pre then (pre.map asciiLowerChar, post) else (([] : List Char), u)
  | none => (([] : List Char), u)

/-- The netloc stage of `urlsplit`: after a leading `//`, the netloc runs up
to the next `/`, `?` or `#`. -/
def netlocSplit (r : List Char) : List Char × List Char :=
  match r with
  | '/' :: '/' :: rr => (rr.takeWhile notNetlocEnd, rr.dropWhile notNetlocEnd)
  | _ => (([] : List Char), r)

/-- The fragment stage of `urlsplit`: split at the first `#`. -/
def fragSplit (r : List Char) : List Char × List Char :=
  match splitFirst '#' r with
  | some (a, b) => (a, b)
  | none => (r, ([] : List Char))

/-- The query stage of `urlsplit`: split at the first `?`. -/
def querySplit (r : List Char) : List Char × List Char :=
  match splitFirst '?' r with
  | some (a, b) => (a, b)
  | none => (r, ([] : List Char))

/-- `urllib.parse.urlsplit`: strip a valid scheme before the first `:`
(lowercased), a `//`-introduced netloc up to the next `/?#`, then split off
the fragment at the first `#` and the query at the first `?`. -/
def urlsplitChars (u : List Char) : UrlParts :=
  let a := schemeSplit u
  let b := netlocSplit a.2
  let f := fragSplit b.2
  let d := querySplit f.1
  ⟨a.1, b.1, d.1, d.2, f.2⟩

/-- The `uses_netloc` scheme list of `urllib.parse` (the empty string is in
the Python list but is masked by the `scheme and ...` truthiness test in
`urlunsplit`, so it is irrelevant here). -/
def uses_netloc : List String :=
  ["", "ftp", "http", "gopher", "nntp", "telnet", "imap", "wais", "file", "mms",
   "https", "shttp", "snews", "prospero", "rtsp", "rtsps", "rtspu", "rsync",
   "svn", "svn+ssh", "sftp", "nfs", "git", "git+ssh", "ws", "wss"]

/-- `urllib.parse.urlunsplit` (current CPython): the `//` root is re-added
when the netloc is nonempty, or when the scheme is nonempty, uses a netloc,
and the path does not already start with `//`. -/
def urlunsplitChars (p : UrlParts) : List Char :=
  let url0 := p.path
  let url1 :=
    if p.netloc ≠ [] ∨
       (p.scheme ≠ [] ∧ uses_netloc.contains (String.mk p.scheme) ∧ ¬url0.take 2 = ['/', '/']) then
      '/' :: '/' :: (p.netloc ++ (if url0 ≠ [] ∧ url0.head? ≠ some '/' then '/' :: url0 else url0))
    else url0
  let url2 := if p.scheme ≠ [] then p.scheme ++ ':' :: url1 else url1
  let url3 := if p.query ≠ [] then url2 ++ '?' :: p.query else url2
  if p.fragment ≠ [] then url3 ++ '#' :: p.fragment else url3

/-- `_normalize_search_url` (Linkedin_Large.py line 250-272, Linkedin_Small.py
line 105-127): split the URL, turn the query into a dict, drop the deny-listed
keys, force `start` to `"0"`, re-encode, and reassemble with the other
components unchanged. -/
def normalize_search_url (url : String) : String :=
  let parts := urlsplitChars url.data
  let q := dictOfPairs (parse_qsl (String.mk parts.query))
  let q2 := dropDenied q
  let q3 := dictInsert q2 "start" "0"
  String.mk (urlunsplitChars ⟨parts.scheme, parts.netloc, parts.path, (urlencode q3).data, parts.fragment⟩)

/-- Query pairs as `urllib.parse.parse_qs` builds them (default
`keep_blank_values=False`): segments without `=` or with an empty raw value
are dropped. -/
def parse_qs_pairs (s : List Char) : List (String × String) :=
  ((splitOnChar '&' s).filter (fun seg => !seg.isEmpty)).filterMap (fun seg =>
    match splitFirst '=' seg with
    | some (n, v) =>
      if v.isEmpty then none
      else some (String.mk (unquotePlusChars n), String.mk (unquotePlusChars v))
    | none => none)

/-- First value listed for a key (`qs[key][0]`). -/
def lookupFirst (k : String) : List (String × String) → Option String
  | [] => none
  | (k2, v) :: rest => if k2 = k then some v else lookupFirst k rest

/-- Remainder of the list after the first occurrence of the pattern
(`s.split(pat)[1]`). -/
def splitAfterSub (pat : List Char) : List Char → Option (List Char)
  | [] => if pat.isEmpty then some [] else none
  | c :: rest =>
    if pat.isPrefixOf (c :: rest) then some ((c :: rest).drop pat.length)
    else splitAfterSub pat rest

/-- `_extract_job_id_from_url` (Linkedin_Large.py line 282-300, Linkedin_Small
line 132-155): the `currentJobId` query parameter if present, else the id
segment after `/jobs/view/`, else `"N/A"`. -/
def extract_job_id_from_url (url : String) : String :=
  if url = "" then "N/A"
  else
    let parts := urlsplitChars url.data
    match lookupFirst "currentJobId" (parse_qs_pairs parts.query) with
    | some v => pyStrip v
    | none =>
      if containsSub "/jobs/view/" url then
        match splitAfterSub "/jobs/view/".data url.data with
        | some rest => String.mk ((rest.takeWhile (fun c => c ≠ '/')).takeWhile (fun c => c ≠ '?'))
        | none => "N/A"
      else "N/A"

/-! ## Per-page extraction (`_extract_jobs_on_page`, Linkedin_Large.py line
747-809 and Linkedin_Small.py line 570-629).  Each loop iteration is driven by
one `CardStep` observation: what the click, the URL wait and the accessor
reads delivered for that card index.  Location/posted/description/salary are
accessor text outputs whose cleanup is out of scope of the controller spec and
are carried opaquely. -/

/-- One persisted job record (the `job_data` dict). -/
structure JobRecord where
  title : String
  company : String
  location : String
  salary_range : String
  posted_date : String
  description : String
  url : String
  job_id : String
  company_job_count : Nat
  scraped_at : String
deriving DecidableEq

/-- Observation for one card index `i` of the extraction loop:
`absent` means the re-fetched card list is shorter than `i` (loop breaks);
`run` carries the click result, the browser URL after
`_wait_for_url_job_change`, whether the detail pane loaded, the title
candidate texts, and the remaining accessor reads; `raiseSkip` is a
stale-element/timeout (or other swallowed) exception, `raiseFatal` a
dead-driver (Large) / invalid-session (Small) exception that the loop
re-raises. -/
inductive CardStep where
  | absent
  | run (clickOk : Bool) (jobUrl : String) (detailsLoaded : Bool)
        (titleCands : List String)
        (location : String) (posted : String) (description : String)
        (salary : String) (scrapedAt : String)
  | raiseSkip
  | raiseFatal
deriving DecidableEq

structure ExtractResult where
  jobs : List JobRecord
  count : Nat
  prevJobId : String
  companyCount : Nat
  fatal : Bool
deriving DecidableEq

/-- The card loop of Linkedin_Large's `_extract_jobs_on_page` (line 756-807).
The fuel is `limit = min(len(cards), PAGE_SIZE)`; the record's `url` field is
`_job_permalink(job_id)`. -/
def extract_loop_large (company : String) : Nat → List CardStep → ExtractResult → ExtractResult
  | 0, _, st => st
  | _ + 1, [], st => st
  | fuel + 1, step :: rest, st =>
    match step with
    | .absent => st
    | .raiseSkip => extract_loop_large company fuel rest st
    | .raiseFatal => { st with fatal := true }
    | .run clickOk jobUrl detailsLoaded titleCands location posted description salary scrapedAt =>
      if !clickOk then extract_loop_large company fuel rest st
      else
        let jobId := extract_job_id_from_url jobUrl
        let st1 := { st with prevJobId := jobId }
        if !detailsLoaded then extract_loop_large company fuel rest st1
        else
          let title := extract_title titleCands
          if title = "N/A" then extract_loop_large company fuel rest st1
          else
            let cnt := st1.companyCount + 1
            let urlForJson := job_permalink jobId
            let r : JobRecord :=
              { title := title, company := company, location := location,
                salary_range := salary, posted_date := posted,
                description := description,
                url := if urlForJson ≠ "" then urlForJson else "N/A",
                job_id := jobId, company_job_count := cnt, scraped_at := scrapedAt }
            extract_loop_large company fuel rest
              { st1 with jobs := st1.jobs ++ [r], count := st1.count + 1, companyCount := cnt }

/-- `_extract_jobs_on_page` (Linkedin_Large.py line 747-809): start from the
current browser URL's job id, cap the loop at `min(len(cards), 25)`. -/
def extract_jobs_on_page_large (company : String) (currentUrl : String)
    (initialCardCount : Nat) (steps : List CardStep) (companyCount : Nat) : ExtractResult :=
  if initialCardCount = 0 then
    ⟨[], 0, extract_job_id_from_url currentUrl, companyCount, false⟩
  else
    extract_loop_large company (min initialCardCount 25) steps
      ⟨[], 0, extract_job_id_from_url currentUrl, companyCount, false⟩

/-- The card loop of Linkedin_Small's `_extract_jobs_on_page` (line 578-627).
Identical to the Large variant except that the record's `url` field is the
browser URL `job_url` itself when `job_id != "N/A"` (line 613), and there is
no 25-card cap. -/
def extract_loop_small (company : String) : Nat → List CardStep → ExtractResult → ExtractResult
  | 0, _, st => st
  | _ + 1, [], st => st
  | fuel + 1, step :: rest, st =>
    match step with
    | .absent => st
    | .raiseSkip => extract_loop_small company fuel rest st
    | .raiseFatal => { st with fatal := true }
    | .run clickOk jobUrl detailsLoaded titleCands location posted description salary scrapedAt =>
      if !clickOk then extract_loop_small company fuel rest st
      else
        let jobId := extract_job_id_from_url jobUrl
        let st1 := { st with prevJobId := jobId }
        if !detailsLoaded then extract_loop_small company fuel rest st1
        else
          let title := extract_title titleCands
          if title = "N/A" then extract_loop_small company fuel rest st1
          else
            let cnt := st1.companyCount + 1
            let r : JobRecord :=
              { title := title, company := company, location := location,
                salary_range := salary, posted_date := posted,
                description := description,
                url := if jobId ≠ "N/A" then jobUrl else "N/A",
                job_id := jobId, company_job_count := cnt, scraped_at := scrapedAt }
            extract_loop_small company fuel rest
              { st1 with jobs := st1.jobs ++ [r], count := st1.count + 1, companyCount := cnt }

/-- `_extract_jobs_on_page` (Linkedin_Small.py line 570-629). -/
def extract_jobs_on_page_small (company : String) (currentUrl : String)
    (initialCardCount : Nat) (steps : List CardStep) (companyCount : Nat) : ExtractResult :=
  if initialCardCount = 0 then
    ⟨[], 0, extract_job_id_from_url currentUrl, companyCount, false⟩
  else
    extract_loop_small company initialCardCount steps
      ⟨[], 0, extract_job_id_from_url currentUrl, companyCount, false⟩

/-! ## The per-URL controller loop (`scrape_single_url`, Linkedin_Large.py
line 666-745).  Each `while True` iteration is driven by one `IterObs`
observation describing what the environment did at every decision point of
that iteration. -/

def PAGE_SIZE : Nat := 25

/-- Outcome of the `_ensure_cards_loaded` call inside its `try` (line
711-721): a boolean result, a dead-driver exception (with the outcome of
`recover_driver`), or any other exception (which the controller re-raises). -/
inductive CardsRes where
  | ok (success : Bool)
  | raiseFatal (recoverOk : Bool)
  | raiseOther
deriving DecidableEq

/-- Outcome of the `_extract_jobs_on_page` call inside its `try` (line
734-742). -/
inductive ExtractRes where
  | ok
  | raiseFatal (recoverOk : Bool)
  | raiseOther
deriving DecidableEq

structure IterObs where
  loadOk : Bool
  loadRecoverOk : Bool
  loggedOut : Bool
  resultsAppear : Bool
  cardsRes : CardsRes
  cards : List Card
  extractRes : ExtractRes
deriving DecidableEq

/-- How the call to `scrape_single_url` ends: returning normally (all `break`
and fall-through paths) or by an exception propagating out of it. -/
inductive RunEnd where
  | finished
  | raised
deriving DecidableEq

/-- `requested` records the `start=` offsets sent to the source in order
(the pre-loop request of the base URL included by the wrapper); `saved`
records the offsets of iterations that completed extraction and reached
`save_results()` (line 745). -/
structure RunResult where
  requested : List Nat
  saved : List Nat
  ended : RunEnd
deriving DecidableEq

/-- `if max_pages and page_count > max_pages: break` — Python truthiness:
`None` and `0` disable the cap. -/
def maxPagesHit (mp : Option Nat) (pc : Nat) : Bool :=
  match mp with
  | none => false
  | some m => m ≠ 0 && pc > m

/-- The `while True` loop of `scrape_single_url` (line 687-745).  `pageCount`
is the value of `page_count` before the `page_count += 1` at the top of the
iteration; `prevSig` is `prev_sig`.  Note that every iteration increments
`page_count`, including the recovery `continue` paths (line 720, 741), so a
recovered page is not retried at the same offset. -/
def scrape_loop_large (mp : Option Nat) : List IterObs → Nat → Option (List String) → RunResult
  | [], _, _ => ⟨[], [], .finished⟩
  | ev :: rest, pageCount, prevSig =>
    let pc := pageCount + 1
    let start := (pc - 1) * PAGE_SIZE
    if maxPagesHit mp pc then ⟨[], [], .finished⟩
    else
      let navBreak : Bool :=
        pc > 1 &&
          ((!ev.loadOk && !ev.loadRecoverOk) || ev.loggedOut || !ev.resultsAppear)
      let requestedHere : List Nat := if pc > 1 then [start] else []
      if navBreak then ⟨requestedHere, [], .finished⟩
      else
        match ev.cardsRes with
        | .raiseFatal recov =>
          if recov then
            let r := scrape_loop_large mp rest pc prevSig
            { r with requested := requestedHere ++ r.requested }
          else ⟨requestedHere, [], .finished⟩
        | .raiseOther => ⟨requestedHere, [], .raised⟩
        | .ok success =>
          if !success then ⟨requestedHere, [], .finished⟩
          else if ev.cards.isEmpty then ⟨requestedHere, [], .finished⟩
          else
            let sig := page_signature ev.cards 10
            if hasEnded prevSig sig false then ⟨requestedHere, [], .finished⟩
            else
              let prevSig2 := some sig
              match ev.extractRes with
              | .raiseFatal recov =>
                if recov then
                  let r := scrape_loop_large mp rest pc prevSig2
                  { r with requested := requestedHere ++ r.requested }
                else ⟨requestedHere, [], .finished⟩
              | .raiseOther => ⟨requestedHere, [], .raised⟩
              | .ok =>
                let r := scrape_loop_large mp rest pc prevSig2
                { r with requested := requestedHere ++ r.requested,
                         saved := start :: r.saved }

/-- Pre-loop observations of `scrape_single_url` (line 666-682): the initial
`safe_get` of the normalized base URL (offset 0), the logged-out check, and
the first `_wait_for_results_or_end`. -/
structure InitObs where
  loadOk : Bool
  loggedOut : Bool
  resultsAppear : Bool
deriving DecidableEq

/-- `scrape_single_url` (Linkedin_Large.py line 666-745): request the base URL
at offset 0, run the pre-loop checks, then the page loop. -/
def scrape_single_url_run (mp : Option Nat) (init : InitObs) (events : List IterObs) : RunResult :=
  if !init.loadOk then ⟨[0], [], .finished⟩
  else if init.loggedOut then ⟨[0], [], .finished⟩
  else if !init.resultsAppear then ⟨[0], [], .finished⟩
  else
    let r := scrape_loop_large mp events 0 none
    { r with requested := 0 :: r.requested }

/-! ## The Small variant's company loop (`scrape_all_companies` /
`scrape_single_company`, Linkedin_Small.py line 466-568). -/

/-- What happens for one company of the loop: the `_is_session_valid` guard
fails (`break`, line 485-487), the company is scraped without an escaping
exception, or `scrape_single_company` ends in an exception —
`InvalidSessionIdException` is re-raised (line 565-566), every other
exception is logged and contained (line 567-568). -/
inductive SmallEvent where
  | sessionLost
  | ok
  | err (invalidSession : Bool)
deriving DecidableEq

structure SmallRunResult where
  attempted : Nat
  raisedPastLoop : Bool
deriving DecidableEq

/-- The `for idx, c in enumerate(companies, 1)` loop of Linkedin_Small's
`scrape_all_companies` (line 484-498).  There is no try/except around
`scrape_single_company` inside the loop, so a re-raised
`InvalidSessionIdException` propagates out of the loop (through the `finally`
that quits the driver) and ends the run. -/
def scrape_all_companies_small : List SmallEvent → SmallRunResult
  | [] => ⟨0, false⟩
  | ev :: rest =>
    match ev with
    | .sessionLost => ⟨0, false⟩
    | .ok =>
      let r := scrape_all_companies_small rest
      ⟨r.attempted + 1, r.raisedPastLoop⟩
    | .err invalidSession =>
      if invalidSession then ⟨1, true⟩
      else
        let r := scrape_all_companies_small rest
        ⟨r.attempted + 1, r.raisedPastLoop⟩

/-! ## The Indeed pipeline's per-group ingestion (`scrape_company_group` /
`ingest_df`, Indeed.py line 711-836, and its helpers line 353-441).  A
dataframe row is carried as the fields that feed the dedupe key and the
missing-anchor / company-match checks; `none` models a missing value
(`is_missing`: `None`/`NaN`).  Constant provenance columns
(`company_group`, `company_search_term`, ...) and the inferred enrichment
fields do not feed any of those checks and are omitted. -/

structure RawJob where
  site : Option String
  id : Option String
  title : Option String
  company : Option String
  location : Option String
  job_url : Option String
  job_url_direct : Option String
  date_posted : Option String
deriving DecidableEq

/-- `norm` (Indeed.py line 364-370) on a string-or-missing value: strip, and
an empty result becomes missing. -/
def normOptStr : Option String → Option String
  | none => none
  | some s => let t := pyStrip s; if t = "" then none else some t

/-- `normalize_dict` restricted to the fields carried here. -/
def normRawJob (j : RawJob) : RawJob :=
  ⟨normOptStr j.site, normOptStr j.id, normOptStr j.title, normOptStr j.company,
   normOptStr j.location, normOptStr j.job_url, normOptStr j.job_url_direct,
   normOptStr j.date_posted⟩

/-- Python `str(job.get(k) or "")` for a string-or-missing value. -/
def strOrEmpty : Option String → String
  | some s => s
  | none => ""

/-- The `pieces` joined by `stable_dedupe_key` (Indeed.py line 404-415), in
source order. -/
def dedupe_pieces (j : RawJob) : String :=
  String.intercalate "||"
    [strOrEmpty j.site, strOrEmpty j.id, strOrEmpty j.job_url,
     strOrEmpty j.job_url_direct, strOrEmpty j.title, strOrEmpty j.company,
     strOrEmpty j.location]

/-- `stable_dedupe_key`: the SHA-1 hex digest of the joined pieces.  The
digest itself is carried as the function parameter `hashFn`; every theorem
below is proved for an arbitrary `hashFn`, so it holds for SHA-1 in
particular. -/
def stable_dedupe_key (hashFn : String → String) (j : RawJob) : String :=
  hashFn (dedupe_pieces j)

/-- A kept job after `keep_common_fields` + `enrich_common_fields`: its
normalized fields and the `dedupe_key` field set at Indeed.py line 639. -/
structure EnrichedJob where
  fields : RawJob
  dedupe_key : String
deriving DecidableEq

/-- `enrich_common_fields` (Indeed.py line 604-641), restricted to what feeds
the dedupe key: normalize the fields, then `job["dedupe_key"] =
stable_dedupe_key(job)`. -/
def enrich (hashFn : String → String) (j : RawJob) : EnrichedJob :=
  let n := normRawJob j
  ⟨n, stable_dedupe_key hashFn n⟩

/-- `to_clean_lower` (Indeed.py line 418-422). -/
def to_clean_lower : Option String → Option String
  | none => none
  | some s => let t := pyStrip s; if t = "" then none else some (asciiLower t)

/-- `make_allowed_company_set` (Indeed.py line 425-431), as a membership
list. -/
def make_allowed_company_set (aliases : List String) : List String :=
  aliases.filterMap (fun a => to_clean_lower (some a))

/-- `company_exact_allowed` (Indeed.py line 434-438). -/
def company_exact_allowed (company : Option String) (allowed : List String) : Bool :=
  match to_clean_lower company with
  | none => false
  | some jc => allowed.contains jc

structure GroupStats where
  rows_seen : Nat
  added : Nat
  deduped : Nat
  dropped_company_mismatch : Nat
  dropped_missing_anchor : Nat
deriving DecidableEq

structure IngestState where
  seen : List String
  jobs : List EnrichedJob
  stats : GroupStats
deriving DecidableEq

def emptyIngestState : IngestState := ⟨[], [], ⟨0, 0, 0, 0, 0⟩⟩

/-- The per-row body of `ingest_df` (Indeed.py line 737-776): count the row;
drop it when `job_url`, `job_url_direct` and `id` are all missing; drop it on
an enforced company mismatch; otherwise enrich it, and append it only when its
`dedupe_key` has not been seen — a seen key counts as `deduped` and the row is
skipped. -/
def ingest_row (exact : Bool) (allowed : List String) (hashFn : String → String)
    (st : IngestState) (row : RawJob) : IngestState :=
  let st1 := { st with stats := { st.stats with rows_seen := st.stats.rows_seen + 1 } }
  if row.job_url = none ∧ row.job_url_direct = none ∧ row.id = none then
    { st1 with stats := { st1.stats with
        dropped_missing_anchor := st1.stats.dropped_missing_anchor + 1 } }
  else if exact ∧ ¬company_exact_allowed row.company allowed then
    { st1 with stats := { st1.stats with
        dropped_company_mismatch := st1.stats.dropped_company_mismatch + 1 } }
  else
    let e := enrich hashFn row
    if st1.seen.contains e.dedupe_key then
      { st1 with stats := { st1.stats with deduped := st1.stats.deduped + 1 } }
    else
      { st1 with seen := e.dedupe_key :: st1.seen,
                 jobs := st1.jobs ++ [e],
                 stats := { st1.stats with added := st1.stats.added + 1 } }

/-- `ingest_df` over the rows of one dataframe; `scrape_company_group` calls
it repeatedly against the same closed-over `seen`/`jobs`/`stats` state, which
is exactly a fold of all rows in arrival order. -/
def ingest_df (exact : Bool) (allowed : List String) (hashFn : String → String)
    (rows : List RawJob) (st : IngestState) : IngestState :=
  rows.foldl (ingest_row exact allowed hashFn) st

/-- Python `x or y` on a string-or-missing value against a string default. -/
def pyOrStr (a : Option String) (dflt : String) : String :=
  match a with
  | some s => if s = "" then dflt else s
  | none => dflt

/-- The sort key of `sort_jobs_newest_first` (Indeed.py line 657-664). -/
def sortKeyJob (e : EnrichedJob) : String × String × String :=
  (pyOrStr e.fields.date_posted "", pyOrStr e.fields.title "",
   pyOrStr e.fields.job_url (pyOrStr e.fields.job_url_direct ""))

/-- Lexicographic comparison of sort keys. -/
def keyLex (a b : String × String × String) : Bool :=
  decide (a.1 < b.1) ||
    (a.1 = b.1 && (decide (a.2.1 < b.2.1) ||
      (a.2.1 = b.2.1 && decide (a.2.2 ≤ b.2.2))))

def insertBy (le : EnrichedJob → EnrichedJob → Bool) (x : EnrichedJob) :
    List EnrichedJob → List EnrichedJob
  | [] => [x]
  | y :: ys => if le x y then x :: y :: ys else y :: insertBy le x ys

def sortJobsBy (le : EnrichedJob → EnrichedJob → Bool) : List EnrichedJob → List EnrichedJob
  | [] => []
  | x :: xs => insertBy le x (sortJobsBy le xs)

/-- `sort_jobs_newest_first` (Indeed.py line 657-664): sort descending by
`(date_posted, title, job_url-or-direct)`; `save_group` persists exactly this
sorted list (line 667-683). -/
def sort_jobs_newest_first (jobs : List EnrichedJob) : List EnrichedJob :=
  sortJobsBy (fun a b => keyLex (sortKeyJob b) (sortKeyJob a)) jobs

/-! # Theorems -/

/-! ## Shared helper lemmas -/

theorem append_tmp_ne (path : String) : ¬ (path = path ++ ".tmp") := by
  intro h
  have hd := congrArg String.data h
  rw [String.data_append] at hd
  have hl := congrArg List.length hd
  simp at hl

theorem empty_string_append (s : String) : "" ++ s = s := String.empty_append s

/-! ## C3 -/

/-- C3: the end-of-results decision is true when the explicit empty-results
marker is present; true when the current signature is non-empty and equal to
the previous one; and false, with the marker absent, when the two signatures
differ — the controller then continues to the next page. -/
theorem C3_hasEnded_correct (prev cur : List String) (marker : Bool) :
    hasEnded (some prev) cur true = true ∧
    (cur ≠ [] → hasEnded (some cur) cur marker = true) ∧
    (prev ≠ cur → hasEnded (some prev) cur false = false) := by
  refine ⟨rfl, ?_, ?_⟩
  · intro h
    simp [hasEnded, List.isEmpty_iff, h]
  · intro h
    simp [hasEnded, h]

theorem C3_hasEnded_correct_witness :
    hasEnded (some ["4359370027"]) ["4359370027"] false = true ∧
    hasEnded (some ["4359370027"]) ["4354588573"] false = false :=
  ⟨(C3_hasEnded_correct ["000"] ["4359370027"] false).2.1 (by decide),
   (C3_hasEnded_correct ["4359370027"] ["4354588573"] false).2.2 (by decide)⟩

/-! ## C1 -/

/-- C1 counterexample: `save_results` opens the real output file with mode
"w", so at the interruption point right after the open a reader observes an
empty (truncated) file — neither the previous nor the new record collection.
The write-to-temporary-then-atomic-replace pattern therefore does not hold for
every persistence of a target's accumulated records. -/
theorem C1_save_results_not_atomic :
    ¬ observesOldOrNew (save_results_ops "[NEW]") out_path_large "[OLD]" "[NEW]" := by
  intro h
  have h2 := h (fun q => if q = out_path_large then some "[OLD]" else none) (by decide) 1
  rcases h2 with h1 | h1 <;> exact absurd h1 (by decide)

/-- C1 (amended): the Indeed pipeline's `atomic_write_json` does follow the
write-to-temporary-then-atomic-replace pattern: at every interruption point a
reader of the destination path observes either the old complete content or
the new complete content. -/
theorem C1_atomic_write_json_crash_safe (path old content : String) :
    observesOldOrNew (atomic_write_json_ops path content) path old content := by
  intro fs hfs k
  have htmp := append_tmp_ne path
  match k with
  | 0 => left; simpa [runOps] using hfs
  | 1 =>
    left
    simp only [atomic_write_json_ops, List.take, runOps, applyOp]
    rw [if_neg htmp]
    exact hfs
  | 2 =>
    left
    simp only [atomic_write_json_ops, List.take, runOps, applyOp]
    rw [if_neg htmp, if_neg htmp]
    exact hfs
  | (n+3) =>
    right
    have hall : (atomic_write_json_ops path content).take (n+3) = atomic_write_json_ops path content := by
      simp [atomic_write_json_ops]
    rw [hall]
    simp only [atomic_write_json_ops, runOps, applyOp]
    simp [String.empty_append]

theorem C1_atomic_write_json_crash_safe_witness :
    runOps (fun q => if q = "indeed_json/RBC.json" then some "[]" else none)
        ((atomic_write_json_ops "indeed_json/RBC.json" "[{}]").take 1) "indeed_json/RBC.json" = some "[]" ∨
    runOps (fun q => if q = "indeed_json/RBC.json" then some "[]" else none)
        ((atomic_write_json_ops "indeed_json/RBC.json" "[{}]").take 1) "indeed_json/RBC.json" = some "[{}]" :=
  C1_atomic_write_json_crash_safe "indeed_json/RBC.json" "[]" "[{}]"
    (fun q => if q = "indeed_json/RBC.json" then some "[]" else none) (by decide) 1

/-! ## C5 -/

theorem sigCollect_filter_eq (n : Nat) :
    ∀ (cards : List Card) (acc : List String),
      sigCollect true n cards acc =
      sigCollect true n (cards.filter (fun c => !is_promoted_card c)) acc := by
  intro cards
  induction cards with
  | nil => intro acc; rfl
  | cons c rest ih =>
    intro acc
    cases hp : is_promoted_card c with
    | true =>
      simp only [sigCollect, List.filter_cons, hp, Bool.and_true, Bool.not_true,
        Bool.false_eq_true, if_true, if_false]
      exact ih acc
    | false =>
      simp only [sigCollect, List.filter_cons, hp, Bool.and_false, Bool.not_false,
        Bool.false_eq_true, if_true, if_false]
      cases hga : get_listing_anchor_id c with
      | some jid =>
        simp only [hga]
        split
        · rfl
        · exact ih (acc ++ [jid])
      | none =>
        simp only [hga]
        split
        · rfl
        · exact ih acc

theorem sigCollect_acc_prefix (skip : Bool) (n : Nat) :
    ∀ (cards : List Card) (acc : List String), ∃ t, sigCollect skip n cards acc = acc ++ t := by
  intro cards
  induction cards with
  | nil => intro acc; exact ⟨[], by simp [sigCollect]⟩
  | cons c rest ih =>
    intro acc
    simp only [sigCollect]
    by_cases hp : skip && is_promoted_card c
    · simpa [hp] using ih acc
    · simp only [hp, Bool.false_eq_true, if_false]
      cases hga : get_listing_anchor_id c with
      | some jid =>
        split
        · exact ⟨[jid], rfl⟩
        · obtain ⟨t, ht⟩ := ih (acc ++ [jid])
          exact ⟨[jid] ++ t, by rw [ht, List.append_assoc]⟩
      | none =>
        split
        · exact ⟨[], by simp⟩
        · obtain ⟨t, ht⟩ := ih acc
          exact ⟨t, ht⟩

theorem sigCollect_ne_nil (skip : Bool) (n : Nat) (hn : 1 ≤ n) :
    ∀ cards : List Card,
      (∃ c ∈ cards, (skip = true → is_promoted_card c = false) ∧ (get_listing_anchor_id c).isSome) →
      sigCollect skip n cards [] ≠ [] := by
  intro cards
  induction cards with
  | nil => rintro ⟨c, hc, -⟩ -; exact absurd hc (List.not_mem_nil c)
  | cons c rest ih =>
    rintro ⟨d, hd, hdp, hdi⟩
    simp only [sigCollect]
    by_cases hp : skip && is_promoted_card c
    · simp only [hp, if_true]
      apply ih
      rcases List.mem_cons.mp hd with rfl | hdrest
      · exfalso
        rw [Bool.and_eq_true] at hp
        rw [hdp hp.1] at hp
        exact Bool.false_ne_true hp.2
      · exact ⟨d, hdrest, hdp, hdi⟩
    · simp only [hp, Bool.false_eq_true, if_false]
      cases hga : get_listing_anchor_id c with
      | some jid =>
        split
        · simp
        · obtain ⟨t, ht⟩ := sigCollect_acc_prefix skip n rest ([] ++ [jid])
          rw [ht]
          simp
      | none =>
        have hlen : ¬ (n ≤ 0) := by omega
        simp only [List.length_nil, hlen, if_false]
        apply ih
        rcases List.mem_cons.mp hd with rfl | hdrest
        · rw [hga] at hdi; exact absurd hdi (by simp)
        · exact ⟨d, hdrest, hdp, hdi⟩

/-- C5 counterexample: on a page whose promoted card carries anchor id "101"
and whose single non-promoted card carries "202", with depth 10 there are
fewer than `n` non-promoted anchors, yet `_page_signature` returns only
("202",): the partial signature does not include the promoted anchor, contrary
to the claimed fallback (the second pass over all cards runs only when no
non-promoted id at all was found). -/
theorem C5_fallback_excludes_promoted :
    page_signature [⟨some "101", none, "Promoted"⟩, ⟨some "202", none, "Engineer"⟩] 10 ≠
    page_signature_claimed [⟨some "101", none, "Promoted"⟩, ⟨some "202", none, "Engineer"⟩] 10 := by
  decide

/-- C5 (amended): the signature collects up to `n` non-promoted anchor ids in
rendered order, and promoted anchors enter only through the fallback second
pass, which runs only when no non-promoted anchor id exists at all.
Consequently, whenever at least one non-promoted anchor id exists (in
particular whenever at least `n` of them exist) and the depth is positive, the
signature of a page with both promoted and non-promoted anchors equals the
signature of the same page restricted to its non-promoted anchors, and a
signature is produced (it is non-empty). -/
theorem C5_promoted_exclusion (cards : List Card) (n : Nat) (hn : 1 ≤ n)
    (h : ∃ c ∈ cards, is_promoted_card c = false ∧ (get_listing_anchor_id c).isSome) :
    page_signature cards n = page_signature (cards.filter (fun c => !is_promoted_card c)) n ∧
    page_signature cards n ≠ [] := by
  have hne : sigCollect true n cards [] ≠ [] := by
    apply sigCollect_ne_nil true n hn
    obtain ⟨c, hc, hcp, hci⟩ := h
    exact ⟨c, hc, fun _ => hcp, hci⟩
  have hfe : sigCollect true n cards [] = sigCollect true n (cards.filter (fun c => !is_promoted_card c)) [] :=
    sigCollect_filter_eq n cards []
  constructor
  · unfold page_signature
    rw [← hfe]
    simp [List.isEmpty_iff, hne]
  · unfold page_signature
    simp [List.isEmpty_iff, hne]

theorem C5_promoted_exclusion_witness :
    page_signature [⟨some "11", none, "Promoted"⟩, ⟨some "22", none, "Engineer A"⟩, ⟨some "33", none, "Engineer B"⟩] 2 =
      page_signature ([⟨some "11", none, "Promoted"⟩, ⟨some "22", none, "Engineer A"⟩, ⟨some "33", none, "Engineer B"⟩].filter
        (fun c => !is_promoted_card c)) 2 ∧
    page_signature [⟨some "11", none, "Promoted"⟩, ⟨some "22", none, "Engineer A"⟩, ⟨some "33", none, "Engineer B"⟩] 2 ≠ [] :=
  C5_promoted_exclusion _ 2 (by decide)
    ⟨⟨some "22", none, "Engineer A"⟩, by decide, by decide⟩

/-! ## C2 -/

theorem extract_title_valid (cands : List String) :
    extract_title cands = "N/A" ∨ titleOk (extract_title cands) = true := by
  induction cands with
  | nil => left; rfl
  | cons s rest ih =>
    simp only [extract_title]
    by_cases h : titleOk (pyStrip s)
    · right; simp [h]
    · simpa [h] using ih

theorem titleOk_props (t : String) (h : titleOk t = true) :
    3 < t.length ∧ t.length < 200 ∧ t ≠ "" ∧ t ≠ "N/A" := by
  simp only [titleOk, Bool.and_eq_true, decide_eq_true_eq, ne_eq] at h
  obtain ⟨⟨⟨h1, h2⟩, h3⟩, h4⟩ := h
  refine ⟨h2, h3, h1, ?_⟩
  intro hna
  rw [hna] at h2
  exact absurd h2 (by decide)

theorem extract_loop_large_title (company : String) :
    ∀ (steps : List CardStep) (fuel : Nat) (st : ExtractResult),
      (∀ r ∈ st.jobs, titleOk r.title = true) →
      ∀ r ∈ (extract_loop_large company fuel steps st).jobs, titleOk r.title = true := by
  intro steps
  induction steps with
  | nil =>
    intro fuel st h r hr
    cases fuel <;> simpa [extract_loop_large] using h r hr
  | cons step rest ih =>
    intro fuel st h r hr
    cases fuel with
    | zero => simpa [extract_loop_large] using h r hr
    | succ f =>
      cases step with
      | absent => simpa [extract_loop_large] using h r hr
      | raiseSkip => exact ih f st h r (by simpa [extract_loop_large] using hr)
      | raiseFatal => simpa [extract_loop_large] using h r hr
      | run clickOk jobUrl detailsLoaded titleCands location posted description salary scrapedAt =>
        simp only [extract_loop_large] at hr
        by_cases hc : clickOk
        · simp only [hc, Bool.not_true, Bool.false_eq_true, if_false] at hr
          by_cases hdl : detailsLoaded
          · simp only [hdl, Bool.not_true, Bool.false_eq_true, if_false] at hr
            by_cases hna : extract_title titleCands = "N/A"
            · simp only [hna, if_true] at hr
              exact ih f { st with prevJobId := extract_job_id_from_url jobUrl }
                (fun r2 hr2 => h r2 hr2) r hr
            · simp only [hna, if_false] at hr
              refine ih f _ ?_ r hr
              intro r2 hr2
              rcases List.mem_append.mp hr2 with h2 | h2
              · exact h r2 h2
              · have : r2.title = extract_title titleCands := by
                  rcases List.mem_singleton.mp h2 with rfl
                  rfl
                rw [this]
                rcases extract_title_valid titleCands with hv | hv
                · exact absurd hv hna
                · exact hv
          · simp only [hdl, Bool.not_false, if_true] at hr
            exact ih f { st with prevJobId := extract_job_id_from_url jobUrl }
              (fun r2 hr2 => h r2 hr2) r hr
        · simp only [hc, Bool.not_false, if_true] at hr
          exact ih f st (fun r2 hr2 => h r2 hr2) r hr

theorem extract_loop_small_title (company : String) :
    ∀ (steps : List CardStep) (fuel : Nat) (st : ExtractResult),
      (∀ r ∈ st.jobs, titleOk r.title = true) →
      ∀ r ∈ (extract_loop_small company fuel steps st).jobs, titleOk r.title = true := by
  intro steps
  induction steps with
  | nil =>
    intro fuel st h r hr
    cases fuel <;> simpa [extract_loop_small] using h r hr
  | cons step rest ih =>
    intro fuel st h r hr
    cases fuel with
    | zero => simpa [extract_loop_small] using h r hr
    | succ f =>
      cases step with
      | absent => simpa [extract_loop_small] using h r hr
      | raiseSkip => exact ih f st h r (by simpa [extract_loop_small] using hr)
      | raiseFatal => simpa [extract_loop_small] using h r hr
      | run clickOk jobUrl detailsLoaded titleCands location posted description salary scrapedAt =>
        simp only [extract_loop_small] at hr
        by_cases hc : clickOk
        · simp only [hc, Bool.not_true, Bool.false_eq_true, if_false] at hr
          by_cases hdl : detailsLoaded
          · simp only [hdl, Bool.not_true, Bool.false_eq_true, if_false] at hr
            by_cases hna : extract_title titleCands = "N/A"
            · simp only [hna, if_true] at hr
              exact ih f { st with prevJobId := extract_job_id_from_url jobUrl }
                (fun r2 hr2 => h r2 hr2) r hr
            · simp only [hna, if_false] at hr
              refine ih f _ ?_ r hr
              intro r2 hr2
              rcases List.mem_append.mp hr2 with h2 | h2
              · exact h r2 h2
              · have : r2.title = extract_title titleCands := by
                  rcases List.mem_singleton.mp h2 with rfl
                  rfl
                rw [this]
                rcases extract_title_valid titleCands with hv | hv
                · exact absurd hv hna
                · exact hv
          · simp only [hdl, Bool.not_false, if_true] at hr
            exact ih f { st with prevJobId := extract_job_id_from_url jobUrl }
              (fun r2 hr2 => h r2 hr2) r hr
        · simp only [hc, Bool.not_false, if_true] at hr
          exact ih f st (fun r2 hr2 => h r2 hr2) r hr

/-- C2 counterexample: a card whose click lands on a search URL carrying no
`currentJobId` and no `/jobs/view/` segment (the timeout path of
`_wait_for_url_job_change`) yields `job_id = "N/A"`, and the record is still
appended: candidate records lacking a recordId are not dropped. -/
theorem C2_missing_record_id_appended :
    ¬ (∀ r ∈ (extract_jobs_on_page_large "TD"
          "https://www.linkedin.com/jobs/search/?f_C=2775&start=0" 1
          [CardStep.run true "https://www.linkedin.com/jobs/search/?f_C=2775&start=0" true
            ["Software Engineer II"] "Toronto, ON" "2 days ago" "desc" "N/A" "t0"] 0).jobs,
        r.job_id ≠ "N/A") := by
  decide

/-- C2 (amended): every record appended by the per-page extraction loop (in
both LinkedIn variants) has a non-empty, non-placeholder title — the
`_extract_title` filter guarantees 3 < length < 200 and excludes the "Jobs"
placeholder and `"N/A"` — but the loop performs no recordId check, so records
with `job_id = "N/A"` can be appended. -/
theorem C2_title_validity (company currentUrl : String) (count0 : Nat)
    (steps : List CardStep) (cc : Nat) :
    (∀ r ∈ (extract_jobs_on_page_large company currentUrl count0 steps cc).jobs,
        3 < r.title.length ∧ r.title.length < 200 ∧ r.title ≠ "" ∧ r.title ≠ "N/A") ∧
    (∀ r ∈ (extract_jobs_on_page_small company currentUrl count0 steps cc).jobs,
        3 < r.title.length ∧ r.title.length < 200 ∧ r.title ≠ "" ∧ r.title ≠ "N/A") := by
  constructor
  · intro r hr
    apply titleOk_props
    unfold extract_jobs_on_page_large at hr
    by_cases h0 : count0 = 0
    · simp only [h0, if_true] at hr
      exact absurd hr (List.not_mem_nil r)
    · simp only [h0, if_false] at hr
      exact extract_loop_large_title company steps _ _ (by intro r2 hr2; exact absurd hr2 (List.not_mem_nil r2)) r hr
  · intro r hr
    apply titleOk_props
    unfold extract_jobs_on_page_small at hr
    by_cases h0 : count0 = 0
    · simp only [h0, if_true] at hr
      exact absurd hr (List.not_mem_nil r)
    · simp only [h0, if_false] at hr
      exact extract_loop_small_title company steps _ _ (by intro r2 hr2; exact absurd hr2 (List.not_mem_nil r2)) r hr

theorem C2_title_validity_witness :
    3 < ("Software Engineer II" : String).length ∧ ("Software Engineer II" : String).length < 200 ∧
      ("Software Engineer II" : String) ≠ "" ∧ ("Software Engineer II" : String) ≠ "N/A" :=
  (C2_title_validity "TD" "https://www.linkedin.com/jobs/search/?f_C=2775&start=0" 1
      [CardStep.run true "https://www.linkedin.com/jobs/view/123/" true
        ["Software Engineer II"] "Toronto, ON" "2 days ago" "desc" "N/A" "t0"] 0).1
    { title := "Software Engineer II", company := "TD", location := "Toronto, ON",
      salary_range := "N/A", posted_date := "2 days ago", description := "desc",
      url := "https://www.linkedin.com/jobs/view/123/", job_id := "123",
      company_job_count := 1, scraped_at := "t0" }
    (by decide)

/-! ## C7 -/

theorem job_permalink_ne_empty (jobId : String) : job_permalink jobId ≠ "" := by
  unfold job_permalink
  split
  · intro h
    have hl := congrArg (fun s => s.data.length) h
    simp [String.data_append] at hl
  · decide

theorem extract_loop_large_url (company : String) :
    ∀ (steps : List CardStep) (fuel : Nat) (st : ExtractResult),
      (∀ r ∈ st.jobs, r.url = job_permalink r.job_id) →
      ∀ r ∈ (extract_loop_large company fuel steps st).jobs, r.url = job_permalink r.job_id := by
  intro steps
  induction steps with
  | nil =>
    intro fuel st h r hr
    cases fuel <;> simpa [extract_loop_large] using h r hr
  | cons step rest ih =>
    intro fuel st h r hr
    cases fuel with
    | zero => simpa [extract_loop_large] using h r hr
    | succ f =>
      cases step with
      | absent => simpa [extract_loop_large] using h r hr
      | raiseSkip => exact ih f st h r (by simpa [extract_loop_large] using hr)
      | raiseFatal => simpa [extract_loop_large] using h r hr
      | run clickOk jobUrl detailsLoaded titleCands location posted description salary scrapedAt =>
        simp only [extract_loop_large] at hr
        by_cases hc : clickOk
        · simp only [hc, Bool.not_true, Bool.false_eq_true, if_false] at hr
          by_cases hdl : detailsLoaded
          · simp only [hdl, Bool.not_true, Bool.false_eq_true, if_false] at hr
            by_cases hna : extract_title titleCands = "N/A"
            · simp only [hna, if_true] at hr
              exact ih f { st with prevJobId := extract_job_id_from_url jobUrl }
                (fun r2 hr2 => h r2 hr2) r hr
            · simp only [hna, if_false] at hr
              refine ih f _ ?_ r hr
              intro r2 hr2
              rcases List.mem_append.mp hr2 with h2 | h2
              · exact h r2 h2
              · rcases List.mem_singleton.mp h2 with rfl
                show (if job_permalink (extract_job_id_from_url jobUrl) ≠ "" then
                    job_permalink (extract_job_id_from_url jobUrl) else "N/A") =
                  job_permalink (extract_job_id_from_url jobUrl)
                rw [if_pos (job_permalink_ne_empty _)]
          · simp only [hdl, Bool.not_false, if_true] at hr
            exact ih f { st with prevJobId := extract_job_id_from_url jobUrl }
              (fun r2 hr2 => h r2 hr2) r hr
        · simp only [hc, Bool.not_false, if_true] at hr
          exact ih f st (fun r2 hr2 => h r2 hr2) r hr

/-- C7 counterexample: in Linkedin_Small the stored `url` is the browser URL
after the click (`"url": job_url if job_id != "N/A" else "N/A"`, line 613),
which carries transient query parameters.  Two cards that resolve to the same
`currentJobId=123` through URLs differing only in `trackingId` produce two
records with equal recordId but different stored urls, and neither url is the
canonical jobs/view permalink. -/
theorem C7_small_url_from_browser :
    ¬ ((∀ r ∈ (extract_jobs_on_page_small "Vancity" "https://www.linkedin.com/jobs/search/?f_C=12526" 2
          [CardStep.run true "https://www.linkedin.com/jobs/search/?currentJobId=123&trackingId=AAA" true
              ["Senior Analyst One"] "Vancouver, BC" "1 day ago" "d1" "N/A" "t1",
           CardStep.run true "https://www.linkedin.com/jobs/search/?currentJobId=123&trackingId=BBB" true
              ["Senior Analyst Two"] "Vancouver, BC" "1 day ago" "d2" "N/A" "t2"] 0).jobs,
          r.url = job_permalink r.job_id) ∧
       (∀ r1 ∈ (extract_jobs_on_page_small "Vancity" "https://www.linkedin.com/jobs/search/?f_C=12526" 2
          [CardStep.run true "https://www.linkedin.com/jobs/search/?currentJobId=123&trackingId=AAA" true
              ["Senior Analyst One"] "Vancouver, BC" "1 day ago" "d1" "N/A" "t1",
           CardStep.run true "https://www.linkedin.com/jobs/search/?currentJobId=123&trackingId=BBB" true
              ["Senior Analyst Two"] "Vancouver, BC" "1 day ago" "d2" "N/A" "t2"] 0).jobs,
        ∀ r2 ∈ (extract_jobs_on_page_small "Vancity" "https://www.linkedin.com/jobs/search/?f_C=12526" 2
          [CardStep.run true "https://www.linkedin.com/jobs/search/?currentJobId=123&trackingId=AAA" true
              ["Senior Analyst One"] "Vancouver, BC" "1 day ago" "d1" "N/A" "t1",
           CardStep.run true "https://www.linkedin.com/jobs/search/?currentJobId=123&trackingId=BBB" true
              ["Senior Analyst Two"] "Vancouver, BC" "1 day ago" "d2" "N/A" "t2"] 0).jobs,
          r1.job_id = r2.job_id → r1.url = r2.url)) := by
  decide

/-- C7 (amended): in Linkedin_Large the stored url is
`_job_permalink(job_id)`, a deterministic function of the recordId alone, so
any two records with the same recordId carry the same permalink; in
Linkedin_Small the stored url is instead the current browser URL (guarded
only by `job_id != "N/A"`), so the claim holds for the Large variant only. -/
theorem C7_large_permalink_from_id (company currentUrl : String) (count0 : Nat)
    (steps : List CardStep) (cc : Nat) :
    (∀ r ∈ (extract_jobs_on_page_large company currentUrl count0 steps cc).jobs,
        r.url = job_permalink r.job_id) ∧
    (∀ r1 ∈ (extract_jobs_on_page_large company currentUrl count0 steps cc).jobs,
      ∀ r2 ∈ (extract_jobs_on_page_large company currentUrl count0 steps cc).jobs,
        r1.job_id = r2.job_id → r1.url = r2.url) := by
  have hmain : ∀ r ∈ (extract_jobs_on_page_large company currentUrl count0 steps cc).jobs,
      r.url = job_permalink r.job_id := by
    intro r hr
    unfold extract_jobs_on_page_large at hr
    by_cases h0 : count0 = 0
    · simp only [h0, if_true] at hr
      exact absurd hr (List.not_mem_nil r)
    · simp only [h0, if_false] at hr
      exact extract_loop_large_url company steps _ _
        (by intro r2 hr2; exact absurd hr2 (List.not_mem_nil r2)) r hr
  refine ⟨hmain, ?_⟩
  intro r1 h1 r2 h2 hid
  rw [hmain r1 h1, hmain r2 h2, hid]

theorem C7_large_permalink_from_id_witness :
    (JobRecord.mk "Software Engineer II" "TD" "Toronto, ON" "N/A" "2 days ago" "desc"
        "https://www.linkedin.com/jobs/view/123/" "123" 1 "t0").url =
      job_permalink (JobRecord.mk "Software Engineer II" "TD" "Toronto, ON" "N/A"
        "2 days ago" "desc" "https://www.linkedin.com/jobs/view/123/" "123" 1 "t0").job_id :=
  (C7_large_permalink_from_id "TD" "https://www.linkedin.com/jobs/search/?f_C=2775&start=0" 1
      [CardStep.run true "https://www.linkedin.com/jobs/view/123/" true
        ["Software Engineer II"] "Toronto, ON" "2 days ago" "desc" "N/A" "t0"] 0).1
    _ (by decide)

/-! ## C4 -/

/-- C4 counterexample: in Linkedin_Small, an `InvalidSessionIdException` —
the agent-fatal failure class — raised while scraping the first company is
re-raised by `scrape_single_company` (line 565-566) and there is no handler
around it in the companies loop, so it propagates past the controller loop
and ends the whole run: the second company is never attempted. -/
theorem C4_invalid_session_terminates_run :
    (scrape_all_companies_small [SmallEvent.err true, SmallEvent.ok]).raisedPastLoop = true ∧
    (scrape_all_companies_small [SmallEvent.err true, SmallEvent.ok]).attempted = 1 := by
  decide

/-- C4 (amended): failure containment holds only for the non-fatal classes.
In Linkedin_Small every exception other than `InvalidSessionIdException` is
logged and contained per company, so a run without invalid-session raises
never raises past the companies loop; in Linkedin_Large's page loop,
driver-dead failures are contained (recovered or the URL abandoned), and only
an exception the dead-driver classifier does not recognize escapes
`scrape_single_url`. -/
theorem C4_containment_of_nonfatal (evs : List SmallEvent) (mp : Option Nat)
    (iters : List IterObs) (pageCount : Nat) (prevSig : Option (List String)) :
    ((∀ e ∈ evs, e ≠ SmallEvent.err true) →
      (scrape_all_companies_small evs).raisedPastLoop = false) ∧
    ((∀ ev ∈ iters, ev.cardsRes ≠ CardsRes.raiseOther ∧ ev.extractRes ≠ ExtractRes.raiseOther) →
      (scrape_loop_large mp iters pageCount prevSig).ended ≠ RunEnd.raised) := by
  constructor
  · intro h
    induction evs with
    | nil => rfl
    | cons e rest ih =>
      have hrest : ∀ x ∈ rest, x ≠ SmallEvent.err true := fun x hx => h x (List.mem_cons_of_mem e hx)
      cases e with
      | sessionLost => rfl
      | ok => simpa [scrape_all_companies_small] using ih hrest
      | err invalidSession =>
        cases invalidSession with
        | true => exact absurd rfl (h _ (List.mem_cons_self _ _))
        | false => simpa [scrape_all_companies_small] using ih hrest
  · induction iters generalizing pageCount prevSig with
    | nil => intro h; simp [scrape_loop_large]
    | cons ev rest ih =>
      intro h
      have hev := h ev (List.mem_cons_self _ _)
      have hrest : ∀ x ∈ rest, x.cardsRes ≠ CardsRes.raiseOther ∧ x.extractRes ≠ ExtractRes.raiseOther :=
        fun x hx => h x (List.mem_cons_of_mem ev hx)
      simp only [scrape_loop_large]
      split
      · simp
      · split
        · simp
        · cases hcr : ev.cardsRes with
          | raiseOther => exact absurd hcr hev.1
          | raiseFatal recov =>
            cases recov with
            | true => simpa using ih (pageCount + 1) prevSig hrest
            | false => simp
          | ok success =>
            cases success with
            | false => simp
            | true =>
              simp only [Bool.not_true, Bool.false_eq_true, if_false]
              split
              · simp
              · split
                · simp
                · cases her : ev.extractRes with
                  | raiseOther => exact absurd her hev.2
                  | raiseFatal recov =>
                    cases recov with
                    | true => simpa using ih (pageCount + 1) (some (page_signature ev.cards 10)) hrest
                    | false => simp
                  | ok => simpa using ih (pageCount + 1) (some (page_signature ev.cards 10)) hrest

theorem C4_containment_of_nonfatal_witness :
    (scrape_all_companies_small [SmallEvent.err false, SmallEvent.ok]).raisedPastLoop = false ∧
    (scrape_loop_large none [IterObs.mk true false false true (CardsRes.raiseFatal false) [] ExtractRes.ok] 0 none).ended ≠ RunEnd.raised :=
  ⟨(C4_containment_of_nonfatal [SmallEvent.err false, SmallEvent.ok] none [] 0 none).1 (by decide),
   (C4_containment_of_nonfatal [] none
      [IterObs.mk true false false true (CardsRes.raiseFatal false) [] ExtractRes.ok] 0 none).2 (by decide)⟩

/-! ## C6 -/

theorem cons_range_map (p k : Nat) :
    p * PAGE_SIZE :: (List.range k).map (fun i => (p + 1 + i) * PAGE_SIZE) =
    (List.range (k + 1)).map (fun i => (p + i) * PAGE_SIZE) := by
  rw [List.range_succ_eq_map, List.map_cons, List.map_map]
  have h2 : (List.range k).map ((fun i => (p + i) * PAGE_SIZE) ∘ Nat.succ) =
      (List.range k).map (fun i => (p + 1 + i) * PAGE_SIZE) := by
    apply List.map_congr_left
    intro a ha
    simp only [Function.comp_apply, Nat.succ_eq_add_one]
    ring
  rw [h2]
  simp

theorem scrape_loop_requested_pos (mp : Option Nat) :
    ∀ (iters : List IterObs) (pageCount : Nat) (prevSig : Option (List String)),
      1 ≤ pageCount →
      ∃ k, (scrape_loop_large mp iters pageCount prevSig).requested =
        (List.range k).map (fun i => (pageCount + i) * PAGE_SIZE) := by
  intro iters
  induction iters with
  | nil => intro pageCount prevSig h1; exact ⟨0, by simp [scrape_loop_large]⟩
  | cons ev rest ih =>
    intro pageCount prevSig h1
    have hgt : pageCount + 1 > 1 := by omega
    simp only [scrape_loop_large, hgt, if_true, Nat.add_sub_cancel]
    split
    · exact ⟨0, by simp⟩
    · split
      · exact ⟨1, by simp [List.range_succ]⟩
      · cases hcr : ev.cardsRes with
        | raiseOther => exact ⟨1, by simp [List.range_succ]⟩
        | raiseFatal recov =>
          cases recov with
          | true =>
            obtain ⟨k, hk⟩ := ih (pageCount + 1) prevSig (by omega)
            refine ⟨k + 1, ?_⟩
            simp only [List.singleton_append, hk]
            exact cons_range_map pageCount k
          | false => exact ⟨1, by simp [List.range_succ]⟩
        | ok success =>
          cases success with
          | false => exact ⟨1, by simp [List.range_succ]⟩
          | true =>
            simp only [Bool.not_true, Bool.false_eq_true, if_false]
            split
            · exact ⟨1, by simp [List.range_succ]⟩
            · split
              · exact ⟨1, by simp [List.range_succ]⟩
              · cases her : ev.extractRes with
                | raiseOther => exact ⟨1, by simp [List.range_succ]⟩
                | raiseFatal recov =>
                  cases recov with
                  | true =>
                    obtain ⟨k, hk⟩ := ih (pageCount + 1) (some (page_signature ev.cards 10)) (by omega)
                    refine ⟨k + 1, ?_⟩
                    simp only [List.singleton_append, hk]
                    exact cons_range_map pageCount k
                  | false => exact ⟨1, by simp [List.range_succ]⟩
                | ok =>
                  obtain ⟨k, hk⟩ := ih (pageCount + 1) (some (page_signature ev.cards 10)) (by omega)
                  refine ⟨k + 1, ?_⟩
                  simp only [List.singleton_append, hk]
                  exact cons_range_map pageCount k

theorem scrape_loop_requested_zero (mp : Option Nat) (iters : List IterObs)
    (prevSig : Option (List String)) :
    ∃ k, (scrape_loop_large mp iters 0 prevSig).requested =
      (List.range k).map (fun i => (1 + i) * PAGE_SIZE) := by
  cases iters with
  | nil => exact ⟨0, by simp [scrape_loop_large]⟩
  | cons ev rest =>
    simp only [scrape_loop_large]
    split
    · exact ⟨0, by simp⟩
    · split
      · exact ⟨0, by simp⟩
      · cases hcr : ev.cardsRes with
        | raiseOther => exact ⟨0, by simp⟩
        | raiseFatal recov =>
          cases recov with
          | true =>
            obtain ⟨k, hk⟩ := scrape_loop_requested_pos mp rest 1 prevSig (by omega)
            exact ⟨k, by simpa using hk⟩
          | false => exact ⟨0, by simp⟩
        | ok success =>
          cases success with
          | false => exact ⟨0, by simp⟩
          | true =>
            simp only [Bool.not_true, Bool.false_eq_true, if_false]
            split
            · exact ⟨0, by simp⟩
            · split
              · exact ⟨0, by simp⟩
              · cases her : ev.extractRes with
                | raiseOther => exact ⟨0, by simp⟩
                | raiseFatal recov =>
                  cases recov with
                  | true =>
                    obtain ⟨k, hk⟩ := scrape_loop_requested_pos mp rest 1
                      (some (page_signature ev.cards 10)) (by omega)
                    exact ⟨k, by simpa using hk⟩
                  | false => exact ⟨0, by simp⟩
                | ok =>
                  obtain ⟨k, hk⟩ := scrape_loop_requested_pos mp rest 1
                    (some (page_signature ev.cards 10)) (by omega)
                  exact ⟨k, by simpa using hk⟩

theorem scrape_loop_saved_sublist_pos (mp : Option Nat) :
    ∀ (iters : List IterObs) (pageCount : Nat) (prevSig : Option (List String)),
      1 ≤ pageCount →
      (scrape_loop_large mp iters pageCount prevSig).saved.Sublist
        (scrape_loop_large mp iters pageCount prevSig).requested := by
  intro iters
  induction iters with
  | nil => intro p prev h1; simp [scrape_loop_large]
  | cons ev rest ih =>
    intro p prev h1
    have hgt : p + 1 > 1 := by omega
    simp only [scrape_loop_large, if_pos hgt, Nat.add_sub_cancel]
    split
    · simp
    · split
      · simp
      · cases hcr : ev.cardsRes with
        | raiseOther => simp
        | raiseFatal recov =>
          cases recov with
          | true =>
            simp only [List.singleton_append]
            exact List.Sublist.cons _ (ih (p + 1) prev (by omega))
          | false => simp
        | ok success =>
          cases success with
          | false => simp
          | true =>
            simp only [Bool.not_true, Bool.false_eq_true, if_false]
            split
            · simp
            · split
              · simp
              · cases her : ev.extractRes with
                | raiseOther => simp
                | raiseFatal recov =>
                  cases recov with
                  | true =>
                    simp only [List.singleton_append]
                    exact List.Sublist.cons _ (ih (p + 1) (some (page_signature ev.cards 10)) (by omega))
                  | false => simp
                | ok =>
                  simp only [List.singleton_append]
                  exact List.Sublist.cons₂ _ (ih (p + 1) (some (page_signature ev.cards 10)) (by omega))

theorem scrape_loop_saved_sublist_zero (mp : Option Nat) (iters : List IterObs)
    (prevSig : Option (List String)) :
    (scrape_loop_large mp iters 0 prevSig).saved.Sublist
      (0 :: (scrape_loop_large mp iters 0 prevSig).requested) := by
  cases iters with
  | nil => simp [scrape_loop_large]
  | cons ev rest =>
    simp only [scrape_loop_large]
    split
    · simp
    · split
      · simp
      · cases hcr : ev.cardsRes with
        | raiseOther => simp
        | raiseFatal recov =>
          cases recov with
          | true =>
            simp only [List.nil_append]
            exact List.Sublist.cons _ (scrape_loop_saved_sublist_pos mp rest 1 prevSig (by omega))
          | false => simp
        | ok success =>
          cases success with
          | false => simp
          | true =>
            simp only [Bool.not_true, Bool.false_eq_true, if_false]
            split
            · simp
            · split
              · simp
              · cases her : ev.extractRes with
                | raiseOther => simp
                | raiseFatal recov =>
                  cases recov with
                  | true =>
                    simp only [List.nil_append]
                    exact List.Sublist.cons _
                      (scrape_loop_saved_sublist_pos mp rest 1 (some (page_signature ev.cards 10)) (by omega))
                  | false => simp
                | ok =>
                  simp only [List.nil_append]
                  simp only [Nat.add_sub_cancel, Nat.zero_mul]
                  exact List.Sublist.cons₂ _
                    (scrape_loop_saved_sublist_pos mp rest 1 (some (page_signature ev.cards 10)) (by omega))

theorem pairwise_lt_range_mul (k : Nat) :
    ((List.range k).map (fun i => i * PAGE_SIZE)).Pairwise (fun a b => a < b) := by
  refine List.Pairwise.map _ ?_ (List.pairwise_lt_range k)
  intro a b h
  simp only [PAGE_SIZE]
  omega

/-- C6 (amended): within one seed query the requested page offsets are exactly
0, 25, 50, ... in order (they start at 0 and advance by exactly `PAGE_SIZE`
per loop iteration, and a fresh call of `scrape_single_url` restarts at 0);
the offsets of successfully processed (extracted-and-saved) pages form a
sublist of the requested offsets and are strictly increasing, hence never
decrease.  However, because the recovery `continue` paths also advance
`page_count`, a successfully processed page need not be followed at offset
+`PAGE_SIZE`: an offset can be skipped (see the counterexample), so
consecutive processed offsets may differ by more than `PAGE_SIZE`. -/
theorem C6_offsets_monotone (mp : Option Nat) (init : InitObs) (evs : List IterObs) :
    ∃ k, (scrape_single_url_run mp init evs).requested =
        (List.range k).map (fun i => i * PAGE_SIZE) ∧
      (scrape_single_url_run mp init evs).saved.Sublist
        ((scrape_single_url_run mp init evs).requested) ∧
      (scrape_single_url_run mp init evs).saved.Pairwise (fun a b => a < b) := by
  have hone : ∀ r : RunResult, r = RunResult.mk [0] [] RunEnd.finished →
      r.requested = (List.range 1).map (fun i => i * PAGE_SIZE) ∧
      r.saved.Sublist r.requested ∧ r.saved.Pairwise (fun a b => a < b) := by
    rintro r rfl
    refine ⟨by simp [List.range_succ], by simp, by simp⟩
  unfold scrape_single_url_run
  by_cases hl : init.loadOk
  · by_cases ho : init.loggedOut
    · simp only [hl, ho, Bool.not_true, Bool.false_eq_true, if_false, if_true]
      exact ⟨1, hone _ rfl⟩
    · by_cases hres : init.resultsAppear
      · simp only [hl, ho, hres, Bool.not_true, Bool.false_eq_true, if_false]
        obtain ⟨k, hk⟩ := scrape_loop_requested_zero mp evs none
        have h0 := cons_range_map 0 k
        simp only [Nat.zero_mul, Nat.zero_add] at h0
        have hreq : 0 :: (scrape_loop_large mp evs 0 none).requested =
            (List.range (k + 1)).map (fun i => i * PAGE_SIZE) := by
          rw [hk]
          exact h0
        refine ⟨k + 1, ?_, ?_, ?_⟩
        · show 0 :: (scrape_loop_large mp evs 0 none).requested = _
          exact hreq
        · show (scrape_loop_large mp evs 0 none).saved.Sublist
            (0 :: (scrape_loop_large mp evs 0 none).requested)
          exact scrape_loop_saved_sublist_zero mp evs none
        · show (scrape_loop_large mp evs 0 none).saved.Pairwise (fun a b => a < b)
          refine List.Pairwise.sublist ?_ (pairwise_lt_range_mul (k + 1))
          have hsub2 : (0 :: (scrape_loop_large mp evs 0 none).requested).Sublist
              ((List.range (k + 1)).map (fun i => i * PAGE_SIZE)) :=
            hreq ▸ List.Sublist.refl _
          exact (scrape_loop_saved_sublist_zero mp evs none).trans hsub2
      · simp only [hl, ho, hres, Bool.not_true, Bool.not_false, Bool.false_eq_true, if_false, if_true]
        exact ⟨1, hone _ rfl⟩
  · simp only [hl, Bool.not_false, if_true]
    exact ⟨1, hone _ rfl⟩

/-- C6 counterexample: a driver-dead failure during extraction of page 2
(offset 25) whose recovery succeeds makes the loop `continue`, but
`page_count` is incremented again at the top of the loop, so the next request
is offset 50 and offset 25 is never extracted: the successfully processed
pages are offsets 0 and 50, which do not advance by exactly `PAGE_SIZE`
between consecutive processed pages. -/
theorem C6_recovery_skips_offset :
    (scrape_single_url_run none (InitObs.mk true false true)
        [IterObs.mk true false false true (CardsRes.ok true)
           [Card.mk (some "111") none "Engineer A"] ExtractRes.ok,
         IterObs.mk true false false true (CardsRes.ok true)
           [Card.mk (some "222") none "Engineer B"] (ExtractRes.raiseFatal true),
         IterObs.mk true false false true (CardsRes.ok true)
           [Card.mk (some "333") none "Engineer C"] ExtractRes.ok]).saved = [0, 50] ∧
    0 + PAGE_SIZE ≠ 50 := by
  decide

/-! ## C10 -/

theorem insertBy_perm (le : EnrichedJob → EnrichedJob → Bool) (x : EnrichedJob) :
    ∀ l : List EnrichedJob, (insertBy le x l).Perm (x :: l) := by
  intro l
  induction l with
  | nil => exact List.Perm.refl _
  | cons y ys ih =>
    simp only [insertBy]
    split
    · exact List.Perm.refl _
    · exact (ih.cons y).trans (List.Perm.swap x y ys)

theorem sortJobsBy_perm (le : EnrichedJob → EnrichedJob → Bool) :
    ∀ l : List EnrichedJob, (sortJobsBy le l).Perm l := by
  intro l
  induction l with
  | nil => exact List.Perm.refl _
  | cons x xs ih =>
    exact (insertBy_perm le x (sortJobsBy le xs)).trans (ih.cons x)

theorem ingest_row_inv (exactMatch : Bool) (allowed : List String) (hashFn : String → String)
    (st : IngestState) (row : RawJob)
    (h : ((st.jobs.map (fun e => e.dedupe_key)).Nodup ∧
          ∀ j ∈ st.jobs, j.dedupe_key ∈ st.seen) ∧
         st.jobs.length = st.stats.added) :
    (((ingest_row exactMatch allowed hashFn st row).jobs.map (fun e => e.dedupe_key)).Nodup ∧
      ∀ j ∈ (ingest_row exactMatch allowed hashFn st row).jobs,
        j.dedupe_key ∈ (ingest_row exactMatch allowed hashFn st row).seen) ∧
    (ingest_row exactMatch allowed hashFn st row).jobs.length =
      (ingest_row exactMatch allowed hashFn st row).stats.added := by
  obtain ⟨⟨hnd, hseen⟩, hlen⟩ := h
  by_cases h1 : row.job_url = none ∧ row.job_url_direct = none ∧ row.id = none
  · refine ⟨⟨?_, ?_⟩, ?_⟩
    · simpa [ingest_row, h1] using hnd
    · simpa [ingest_row, h1] using hseen
    · simpa [ingest_row, h1] using hlen
  · by_cases h2 : exactMatch = true ∧ company_exact_allowed row.company allowed = false
    · refine ⟨⟨?_, ?_⟩, ?_⟩
      · simpa [ingest_row, h1, h2] using hnd
      · simpa [ingest_row, h1, h2] using hseen
      · simpa [ingest_row, h1, h2] using hlen
    · by_cases h3 : (enrich hashFn row).dedupe_key ∈ st.seen
      · refine ⟨⟨?_, ?_⟩, ?_⟩
        · simpa [ingest_row, h1, h2, h3] using hnd
        · simpa [ingest_row, h1, h2, h3] using hseen
        · simpa [ingest_row, h1, h2, h3] using hlen
      · have hrw : ingest_row exactMatch allowed hashFn st row =
            { seen := (enrich hashFn row).dedupe_key :: st.seen,
              jobs := st.jobs ++ [enrich hashFn row],
              stats := { rows_seen := st.stats.rows_seen + 1, added := st.stats.added + 1,
                         deduped := st.stats.deduped,
                         dropped_company_mismatch := st.stats.dropped_company_mismatch,
                         dropped_missing_anchor := st.stats.dropped_missing_anchor } } := by
          simp [ingest_row, h1, h2, h3]
        rw [hrw]
        refine ⟨⟨?_, ?_⟩, ?_⟩
        · show ((st.jobs ++ [enrich hashFn row]).map (fun e => e.dedupe_key)).Nodup
          rw [List.map_append, List.map_singleton]
          apply List.Nodup.append hnd (List.nodup_singleton _)
          intro a ha hb
          rcases List.mem_singleton.mp hb with rfl
          rcases List.mem_map.mp ha with ⟨j, hj, hjk⟩
          apply h3
          rw [← hjk]
          exact hseen j hj
        · intro j hj
          rcases List.mem_append.mp hj with hj1 | hj2
          · exact List.mem_cons_of_mem _ (hseen j hj1)
          · rcases List.mem_singleton.mp hj2 with rfl
            exact List.mem_cons_self _ _
        · simpa using hlen

theorem ingest_df_inv (exactMatch : Bool) (allowed : List String) (hashFn : String → String) :
    ∀ (rows : List RawJob) (st : IngestState),
      (((st.jobs.map (fun e => e.dedupe_key)).Nodup ∧
         ∀ j ∈ st.jobs, j.dedupe_key ∈ st.seen) ∧
        st.jobs.length = st.stats.added) →
      (((ingest_df exactMatch allowed hashFn rows st).jobs.map (fun e => e.dedupe_key)).Nodup ∧
        ∀ j ∈ (ingest_df exactMatch allowed hashFn rows st).jobs,
          j.dedupe_key ∈ (ingest_df exactMatch allowed hashFn rows st).seen) ∧
      (ingest_df exactMatch allowed hashFn rows st).jobs.length =
        (ingest_df exactMatch allowed hashFn rows st).stats.added := by
  intro rows
  induction rows with
  | nil => intro st h; exact h
  | cons row rest ih =>
    intro st h
    exact ih _ (ingest_row_inv exactMatch allowed hashFn st row h)

theorem ingest_row_counts (exactMatch : Bool) (allowed : List String) (hashFn : String → String)
    (st : IngestState) (row : RawJob) :
    (ingest_row exactMatch allowed hashFn st row).stats.added +
      (ingest_row exactMatch allowed hashFn st row).stats.deduped +
      (ingest_row exactMatch allowed hashFn st row).stats.dropped_company_mismatch +
      (ingest_row exactMatch allowed hashFn st row).stats.dropped_missing_anchor =
      st.stats.added + st.stats.deduped + st.stats.dropped_company_mismatch +
        st.stats.dropped_missing_anchor + 1 ∧
    (ingest_row exactMatch allowed hashFn st row).stats.rows_seen = st.stats.rows_seen + 1 := by
  by_cases h1 : row.job_url = none ∧ row.job_url_direct = none ∧ row.id = none
  · refine ⟨?_, ?_⟩ <;> simp [ingest_row, h1] <;> omega
  · by_cases h2 : exactMatch = true ∧ company_exact_allowed row.company allowed = false
    · refine ⟨?_, ?_⟩ <;> simp [ingest_row, h1, h2] <;> omega
    · by_cases h3 : (enrich hashFn row).dedupe_key ∈ st.seen
      · refine ⟨?_, ?_⟩ <;> simp [ingest_row, h1, h2, h3] <;> omega
      · refine ⟨?_, ?_⟩ <;> simp [ingest_row, h1, h2, h3] <;> omega

theorem ingest_df_counts (exactMatch : Bool) (allowed : List String) (hashFn : String → String) :
    ∀ (rows : List RawJob) (st : IngestState),
      (ingest_df exactMatch allowed hashFn rows st).stats.added +
        (ingest_df exactMatch allowed hashFn rows st).stats.deduped +
        (ingest_df exactMatch allowed hashFn rows st).stats.dropped_company_mismatch +
        (ingest_df exactMatch allowed hashFn rows st).stats.dropped_missing_anchor =
        st.stats.added + st.stats.deduped + st.stats.dropped_company_mismatch +
          st.stats.dropped_missing_anchor + rows.length ∧
      (ingest_df exactMatch allowed hashFn rows st).stats.rows_seen =
        st.stats.rows_seen + rows.length := by
  intro rows
  induction rows with
  | nil => intro st; exact ⟨by simp [ingest_df], by simp [ingest_df]⟩
  | cons row rest ih =>
    intro st
    have hrow := ingest_row_counts exactMatch allowed hashFn st row
    have hrest := ih (ingest_row exactMatch allowed hashFn st row)
    have hdf : ingest_df exactMatch allowed hashFn (row :: rest) st =
        ingest_df exactMatch allowed hashFn rest (ingest_row exactMatch allowed hashFn st row) := rfl
    rw [hdf, List.length_cons]
    omega

/-- C10: the per-group ingestion never stores two records with the same
dedupe key — a row whose stable key is already in the seen-set is counted as
deduped and skipped — so the accumulated jobs list, and the sorted list that
`save_group` persists, contain pairwise-distinct `dedupe_key` values; every
ingested row is accounted for as added, deduped, or dropped.  Proved for an
arbitrary digest function, hence in particular for SHA-1. -/
theorem C10_dedupe_key_unique (exactMatch : Bool) (allowed : List String)
    (hashFn : String → String) (rows : List RawJob) :
    (((ingest_df exactMatch allowed hashFn rows emptyIngestState).jobs.map
        (fun e => e.dedupe_key)).Nodup) ∧
    (((sort_jobs_newest_first (ingest_df exactMatch allowed hashFn rows emptyIngestState).jobs).map
        (fun e => e.dedupe_key)).Nodup) ∧
    (ingest_df exactMatch allowed hashFn rows emptyIngestState).jobs.length =
      (ingest_df exactMatch allowed hashFn rows emptyIngestState).stats.added ∧
    (ingest_df exactMatch allowed hashFn rows emptyIngestState).stats.added +
      (ingest_df exactMatch allowed hashFn rows emptyIngestState).stats.deduped +
      (ingest_df exactMatch allowed hashFn rows emptyIngestState).stats.dropped_company_mismatch +
      (ingest_df exactMatch allowed hashFn rows emptyIngestState).stats.dropped_missing_anchor =
      rows.length ∧
    (ingest_df exactMatch allowed hashFn rows emptyIngestState).stats.rows_seen = rows.length := by
  have hinv := ingest_df_inv exactMatch allowed hashFn rows emptyIngestState
    (by refine ⟨⟨?_, ?_⟩, rfl⟩ <;> simp [emptyIngestState])
  have hcnt := ingest_df_counts exactMatch allowed hashFn rows emptyIngestState
  refine ⟨hinv.1.1, ?_, hinv.2, ?_, ?_⟩
  · have hperm : (sort_jobs_newest_first
        (ingest_df exactMatch allowed hashFn rows emptyIngestState).jobs).Perm
        ((ingest_df exactMatch allowed hashFn rows emptyIngestState).jobs) :=
      sortJobsBy_perm _ _
    exact ((hperm.map (fun e => e.dedupe_key)).nodup_iff).mpr hinv.1.1
  · have h1 := hcnt.1
    rw [show emptyIngestState.stats.added = 0 from rfl,
        show emptyIngestState.stats.deduped = 0 from rfl,
        show emptyIngestState.stats.dropped_company_mismatch = 0 from rfl,
        show emptyIngestState.stats.dropped_missing_anchor = 0 from rfl] at h1
    omega
  · have h2 := hcnt.2
    rw [show emptyIngestState.stats.rows_seen = 0 from rfl] at h2
    omega

/-! ## Supporting lemmas for URL normalization (claims C8 and C9) -/

theorem toNat_ofNat_lt (n : Nat) (h : n < 256) : (Char.ofNat n).toNat = n := by
  have hv : n.isValidChar := Or.inl (by omega)
  simp [Char.ofNat, hv, Char.ofNatAux, Char.toNat, UInt32.toNat, UInt32.ofNatCore]

theorem splitFirst_eq_none (c : Char) : ∀ (xs : List Char), c ∉ xs → splitFirst c xs = none := by
  intro xs
  induction xs with
  | nil => intro _; rfl
  | cons x xs ih =>
    intro h
    have hx : ¬ x = c := by intro e; exact h (by simp [e])
    have hr := ih (fun hm => h (List.mem_cons_of_mem _ hm))
    simp [splitFirst, hx, hr]

theorem splitFirst_none_not_mem (c : Char) :
    ∀ (xs : List Char), splitFirst c xs = none → c ∉ xs := by
  intro xs
  induction xs with
  | nil => intro _; simp
  | cons x xs ih =>
    intro h
    by_cases hx : x = c
    · simp [splitFirst, hx] at h
    · cases hr : splitFirst c xs with
      | none =>
        intro hm
        rcases List.mem_cons.mp hm with he | hm2
        · exact hx he.symm
        · exact ih hr hm2
      | some ab => simp [splitFirst, hx, hr] at h

theorem splitFirst_append_head (c : Char) :
    ∀ (xs ys : List Char), c ∉ xs → splitFirst c (xs ++ c :: ys) = some (xs, ys) := by
  intro xs
  induction xs with
  | nil => intro ys _; simp [splitFirst]
  | cons x xs ih =>
    intro ys h
    have hx : ¬ x = c := by intro e; exact h (by simp [e])
    simp [splitFirst, hx, ih ys (fun hm => h (List.mem_cons_of_mem _ hm))]

theorem splitFirst_some_spec (c : Char) :
    ∀ (xs a b : List Char), splitFirst c xs = some (a, b) → xs = a ++ c :: b ∧ c ∉ a := by
  intro xs
  induction xs with
  | nil => intro a b h; simp [splitFirst] at h
  | cons x xs ih =>
    intro a b h
    by_cases hx : x = c
    · simp [splitFirst, hx] at h
      obtain ⟨ha, hb⟩ := h
      subst ha; subst hb; subst hx
      exact ⟨rfl, by simp⟩
    · cases hr : splitFirst c xs with
      | none => simp [splitFirst, hx, hr] at h
      | some ab =>
        obtain ⟨a2, b2⟩ := ab
        obtain ⟨hxs, hna⟩ := ih a2 b2 hr
        simp [splitFirst, hx, hr] at h
        obtain ⟨ha, hb⟩ := h
        subst ha; subst hb
        constructor
        · simp [hxs]
        · intro hm
          rcases List.mem_cons.mp hm with he | hm2
          · exact hx he.symm
          · exact hna hm2

theorem splitFirst_append_none (c : Char) :
    ∀ (xs ys : List Char), c ∉ xs →
      splitFirst c (xs ++ ys) = (splitFirst c ys).map (fun ab => (xs ++ ab.1, ab.2)) := by
  intro xs
  induction xs with
  | nil =>
    intro ys _
    cases hy : splitFirst c ys with
    | none => simp [hy]
    | some ab => simp [hy]
  | cons x xs ih =>
    intro ys h
    have hx : ¬ x = c := by intro e; exact h (by simp [e])
    have hr := ih ys (fun hm => h (List.mem_cons_of_mem _ hm))
    cases hy : splitFirst c ys with
    | none => simp [splitFirst, hx, hr, hy]
    | some ab => simp [splitFirst, hx, hr, hy]

theorem takeWhile_append_stop (f : Char → Bool) :
    ∀ (xs ys : List Char), (∀ c ∈ xs, f c = true) →
      (ys = [] ∨ ∃ y t, ys = y :: t ∧ f y = false) →
      (xs ++ ys).takeWhile f = xs ∧ (xs ++ ys).dropWhile f = ys := by
  intro xs
  induction xs with
  | nil =>
    intro ys _ hy
    rcases hy with he | ⟨y, t, he, hf⟩
    · subst he; simp
    · subst he; simp [List.takeWhile, List.dropWhile, hf]
  | cons x xs ih =>
    intro ys hall hy
    have hx : f x = true := hall x (List.mem_cons_self x xs)
    have := ih ys (fun c hc => hall c (List.mem_cons_of_mem _ hc)) hy
    simp [List.takeWhile, List.dropWhile, hx, this.1, this.2]

theorem dropWhile_head_prop (f : Char → Bool) :
    ∀ (l : List Char), l.dropWhile f = [] ∨ ∃ y t, l.dropWhile f = y :: t ∧ f y = false := by
  intro l
  induction l with
  | nil => left; rfl
  | cons x xs ih =>
    by_cases hx : f x = true
    · simpa [List.dropWhile, hx] using ih
    · right
      exact ⟨x, xs, by simp [List.dropWhile, hx], by simpa using hx⟩

theorem asciiLowerChar_toNat (c : Char) :
    (asciiLowerChar c).toNat =
      if 65 ≤ c.toNat ∧ c.toNat ≤ 90 then c.toNat + 32 else c.toNat := by
  unfold asciiLowerChar
  split
  · next h => exact toNat_ofNat_lt _ (by omega)
  · rfl

theorem asciiLowerChar_of_not_upper (c : Char) (h : ¬(65 ≤ c.toNat ∧ c.toNat ≤ 90)) :
    asciiLowerChar c = c := by
  unfold asciiLowerChar
  exact if_neg h

theorem asciiLowerChar_idem (c : Char) :
    asciiLowerChar (asciiLowerChar c) = asciiLowerChar c := by
  have ht := asciiLowerChar_toNat c
  apply asciiLowerChar_of_not_upper
  by_cases h : 65 ≤ c.toNat ∧ c.toNat ≤ 90
  · rw [if_pos h] at ht; omega
  · rw [if_neg h] at ht; omega

theorem map_asciiLowerChar_idem (l : List Char) :
    (l.map asciiLowerChar).map asciiLowerChar = l.map asciiLowerChar := by
  have hfun : asciiLowerChar ∘ asciiLowerChar = asciiLowerChar := funext asciiLowerChar_idem
  rw [List.map_map, hfun]

theorem isAsciiAlpha_lower (c : Char) (h : isAsciiAlpha c = true) :
    isAsciiAlpha (asciiLowerChar c) = true := by
  have ht := asciiLowerChar_toNat c
  simp only [isAsciiAlpha, Bool.or_eq_true, Bool.and_eq_true, decide_eq_true_eq] at h ⊢
  by_cases hc : 65 ≤ c.toNat ∧ c.toNat ≤ 90
  · rw [if_pos hc] at ht; omega
  · rw [if_neg hc] at ht; omega

theorem schemeCharOk_lower (c : Char) (h : schemeCharOk c = true) :
    schemeCharOk (asciiLowerChar c) = true := by
  simp only [schemeCharOk, Bool.or_eq_true, Bool.and_eq_true, decide_eq_true_eq] at h ⊢
  rcases h with (((ha | hd) | hp) | hm) | hdot
  · exact Or.inl (Or.inl (Or.inl (Or.inl (isAsciiAlpha_lower c ha))))
  · rw [asciiLowerChar_of_not_upper c (by omega)]
    exact Or.inl (Or.inl (Or.inl (Or.inr hd)))
  · subst hp; decide
  · subst hm; decide
  · subst hdot; decide

theorem validScheme_lower (pre : List Char) (h : validScheme pre = true) :
    validScheme (pre.map asciiLowerChar) = true := by
  cases pre with
  | nil => simp [validScheme] at h
  | cons c t =>
    rw [List.map_cons]
    simp only [validScheme, Bool.and_eq_true, List.all_eq_true] at h ⊢
    refine ⟨isAsciiAlpha_lower c h.1, ?_⟩
    intro x hx
    simp only [List.map_cons, List.mem_cons, List.mem_map] at hx
    rcases hx with he | ⟨y, hy, he⟩
    · exact he ▸ schemeCharOk_lower c (h.2 c (by simp))
    · exact he ▸ schemeCharOk_lower y (h.2 y (by simp [hy]))

theorem validScheme_false_of_mem (a : List Char) (bad : Char) (hm : bad ∈ a)
    (hb : schemeCharOk bad = false) : validScheme a = false := by
  cases a with
  | nil => rfl
  | cons c t =>
    simp only [validScheme]
    have : (c :: t).all schemeCharOk = false :=
      List.all_eq_false.mpr ⟨bad, hm, by simp [hb]⟩
    simp [this]

theorem colon_not_mem_of_validScheme (s : List Char) (h : validScheme s = true) :
    ':' ∉ s := by
  intro hm
  cases s with
  | nil => simp at hm
  | cons c t =>
    simp only [validScheme, Bool.and_eq_true, List.all_eq_true] at h
    have := h.2 ':' hm
    exact absurd this (by decide)

theorem hexVal_hexDigitChar : ∀ m < 16, hexVal (hexDigitChar m) = m := by decide

theorem isHexDigitChar_hexDigitChar : ∀ m < 16, isHexDigitChar (hexDigitChar m) = true := by
  decide

theorem hexDigitChar_not_special : ∀ m < 16,
    hexDigitChar m ≠ '+' ∧ hexDigitChar m ≠ '%' ∧ hexDigitChar m ≠ '#' ∧
    hexDigitChar m ≠ '&' ∧ hexDigitChar m ≠ '=' ∧ hexDigitChar m ≠ '?' ∧
    hexDigitChar m ≠ ':' ∧ hexDigitChar m ≠ '/' := by decide

theorem isSafeChar_not_special (c : Char) (h : isSafeChar c = true) :
    c ≠ '+' ∧ c ≠ '%' ∧ c ≠ ' ' := by
  refine ⟨?_, ?_, ?_⟩ <;> · intro e; rw [e] at h; exact absurd h (by decide)

theorem percentDecode_cons_ne (c : Char) (rest : List Char) (h : c ≠ '%') :
    percentDecode (c :: rest) = c :: percentDecode rest := by
  rw [percentDecode.eq_def]
  split
  · simp_all
  · rename_i h2
    injection h2 with h3 h4
    exact absurd h3 h
  · rename_i heq
    injection heq with h3 h4
    subst h3; subst h4
    rfl

theorem percentDecode_pct (c1 c2 : Char) (rest : List Char) :
    percentDecode ('%' :: c1 :: c2 :: rest) =
      if isHexDigitChar c1 && isHexDigitChar c2 then
        Char.ofNat (16 * hexVal c1 + hexVal c2) :: percentDecode rest
      else '%' :: percentDecode (c1 :: c2 :: rest) := rfl

theorem plusToSpace_cons_ne (c : Char) (t : List Char) (h : c ≠ '+') :
    plusToSpace (c :: t) = c :: plusToSpace t := by
  simp [plusToSpace, h]

theorem unquote_quote_cons (c : Char) (t : List Char) :
    percentDecode (plusToSpace (quotePlusChar c ++ t)) = c :: percentDecode (plusToSpace t) := by
  by_cases hs : isSafeChar c = true
  · obtain ⟨hplus, hpct, _⟩ := isSafeChar_not_special c hs
    rw [show quotePlusChar c = [c] from by rw [quotePlusChar, if_pos hs]]
    rw [List.singleton_append, plusToSpace_cons_ne c _ hplus, percentDecode_cons_ne c _ hpct]
  · by_cases hsp : c = ' '
    · rw [show quotePlusChar c = ['+'] from by
        rw [quotePlusChar, if_neg (by simp [hs]), if_pos hsp]]
      rw [List.singleton_append]
      have h1 : plusToSpace ('+' :: t) = ' ' :: plusToSpace t := by simp [plusToSpace]
      rw [h1, percentDecode_cons_ne ' ' _ (by decide), hsp]
    · by_cases hlt : c.toNat < 256
      · rw [show quotePlusChar c =
            ['%', hexDigitChar (c.toNat / 16), hexDigitChar (c.toNat % 16)] from by
          rw [quotePlusChar, if_neg (by simp [hs]), if_neg hsp, if_pos hlt]]
        have hd1 : c.toNat / 16 < 16 := by omega
        have hd2 : c.toNat % 16 < 16 := by omega
        have hp1 := (hexDigitChar_not_special _ hd1).1
        have hp2 := (hexDigitChar_not_special _ hd2).1
        rw [List.cons_append, List.cons_append, List.cons_append,
          plusToSpace_cons_ne _ _ (by decide), plusToSpace_cons_ne _ _ hp1,
          plusToSpace_cons_ne _ _ hp2, percentDecode_pct,
          if_pos (by
            rw [isHexDigitChar_hexDigitChar _ hd1, isHexDigitChar_hexDigitChar _ hd2]; rfl),
          hexVal_hexDigitChar _ hd1, hexVal_hexDigitChar _ hd2,
          Nat.div_add_mod c.toNat 16, Char.ofNat_toNat, List.nil_append]
      · have hplus : c ≠ '+' := by intro e; rw [e] at hlt; exact hlt (by decide)
        have hpct : c ≠ '%' := by intro e; rw [e] at hlt; exact hlt (by decide)
        rw [show quotePlusChar c = [c] from by
          rw [quotePlusChar, if_neg (by simp [hs]), if_neg hsp, if_neg hlt]]
        rw [List.singleton_append, plusToSpace_cons_ne c _ hplus,
          percentDecode_cons_ne c _ hpct]

theorem unquote_quote (s : List Char) : unquotePlusChars (quotePlusChars s) = s := by
  induction s with
  | nil => rfl
  | cons c s ih =>
    show percentDecode (plusToSpace (quotePlusChars (c :: s))) = c :: s
    rw [show quotePlusChars (c :: s) = quotePlusChar c ++ quotePlusChars s from by
      simp [quotePlusChars]]
    rw [unquote_quote_cons]
    exact congrArg (c :: ·) ih

theorem not_mem_quotePlusChars (bad : Char)
    (hsafe : isSafeChar bad = false) (hplus : bad ≠ '+') (hpct : bad ≠ '%')
    (hhex : ∀ m < 16, hexDigitChar m ≠ bad) (hlt : bad.toNat < 256) :
    ∀ (s : List Char), bad ∉ quotePlusChars s := by
  intro s
  induction s with
  | nil => simp [quotePlusChars]
  | cons c t ih =>
    rw [show quotePlusChars (c :: t) = quotePlusChar c ++ quotePlusChars t from by
      simp [quotePlusChars]]
    intro hm
    rcases List.mem_append.mp hm with hc | ht
    · by_cases hs : isSafeChar c = true
      · rw [quotePlusChar, if_pos hs] at hc
        simp at hc
        rw [hc] at hsafe
        exact absurd (hs.symm.trans hsafe) (by decide)
      · by_cases hsp : c = ' '
        · rw [quotePlusChar, if_neg (by simp [hs]), if_pos hsp] at hc
          simp at hc
          exact hplus hc
        · by_cases hl : c.toNat < 256
          · rw [quotePlusChar, if_neg (by simp [hs]), if_neg hsp, if_pos hl] at hc
            rcases List.mem_cons.mp hc with he | hc2
            · exact hpct he
            · rcases List.mem_cons.mp hc2 with he | hc3
              · exact hhex (c.toNat / 16) (by omega) he.symm
              · rcases List.mem_cons.mp hc3 with he | hc4
                · exact hhex (c.toNat % 16) (by omega) he.symm
                · simp at hc4
          · rw [quotePlusChar, if_neg (by simp [hs]), if_neg hsp, if_neg hl] at hc
            simp at hc
            rw [← hc] at hl
            exact hl hlt
    · exact ih ht

theorem mem_intercalateChar (sep : Char) :
    ∀ (segs : List (List Char)) (c : Char), c ∈ intercalateChar sep segs →
      c = sep ∨ ∃ s ∈ segs, c ∈ s := by
  intro segs
  induction segs with
  | nil => intro c hm; simp [intercalateChar] at hm
  | cons x rest ih =>
    intro c hm
    cases rest with
    | nil =>
      right
      exact ⟨x, by simp, by simpa [intercalateChar] using hm⟩
    | cons y t =>
      rw [show intercalateChar sep (x :: y :: t) = x ++ sep :: intercalateChar sep (y :: t)
          from rfl] at hm
      rcases List.mem_append.mp hm with hx | hrest
      · exact Or.inr ⟨x, by simp, hx⟩
      · rcases List.mem_cons.mp hrest with he | hm2
        · exact Or.inl he
        · rcases ih c hm2 with he | ⟨s, hs, hcs⟩
          · exact Or.inl he
          · exact Or.inr ⟨s, List.mem_cons_of_mem _ hs, hcs⟩

theorem not_mem_urlencode (bad : Char)
    (hsafe : isSafeChar bad = false) (hplus : bad ≠ '+') (hpct : bad ≠ '%')
    (hhex : ∀ m < 16, hexDigitChar m ≠ bad) (hlt : bad.toNat < 256)
    (hamp : bad ≠ '&') (heq : bad ≠ '=') :
    ∀ (d : List (String × String)), bad ∉ (urlencode d).data := by
  intro d hm
  rw [urlencode] at hm
  rcases mem_intercalateChar '&' _ bad hm with he | ⟨s, hs, hcs⟩
  · exact hamp he
  · rcases List.mem_map.mp hs with ⟨kv, _, hseg⟩
    rw [← hseg] at hcs
    rcases List.mem_append.mp hcs with hk | hv
    · exact not_mem_quotePlusChars bad hsafe hplus hpct hhex hlt _ hk
    · rcases List.mem_cons.mp hv with he2 | hv2
      · exact heq he2
      · exact not_mem_quotePlusChars bad hsafe hplus hpct hhex hlt _ hv2

theorem splitOnChar_no_sep (c : Char) :
    ∀ (xs : List Char), c ∉ xs → splitOnChar c xs = [xs] := by
  intro xs
  induction xs with
  | nil => intro _; rfl
  | cons x xs ih =>
    intro h
    have hx : ¬ x = c := by intro e; exact h (by simp [e])
    have hr := ih (fun hm => h (List.mem_cons_of_mem _ hm))
    simp [splitOnChar, hx, hr]

theorem splitOnChar_sep_append (c : Char) :
    ∀ (xs t : List Char), c ∉ xs →
      splitOnChar c (xs ++ c :: t) = xs :: splitOnChar c t := by
  intro xs
  induction xs with
  | nil => intro t _; simp [splitOnChar]
  | cons x xs ih =>
    intro t h
    have hx : ¬ x = c := by intro e; exact h (by simp [e])
    have hr := ih t (fun hm => h (List.mem_cons_of_mem _ hm))
    simp [splitOnChar, hx, hr]

theorem splitOnChar_intercalateChar (c : Char) :
    ∀ (segs : List (List Char)), segs ≠ [] → (∀ s ∈ segs, c ∉ s) →
      splitOnChar c (intercalateChar c segs) = segs := by
  intro segs
  induction segs with
  | nil => intro h _; exact absurd rfl h
  | cons x rest ih =>
    intro _ hall
    cases rest with
    | nil =>
      rw [show intercalateChar c [x] = x from rfl]
      exact splitOnChar_no_sep c x (hall x (by simp))
    | cons y t =>
      rw [show intercalateChar c (x :: y :: t) = x ++ c :: intercalateChar c (y :: t)
          from rfl]
      rw [splitOnChar_sep_append c x _ (hall x (by simp))]
      rw [ih (by simp) (fun s hs => hall s (List.mem_cons_of_mem _ hs))]

theorem parseSeg_encoded (k v : String) :
    parseSeg (quotePlusChars k.data ++ '=' :: quotePlusChars v.data) = (k, v) := by
  rw [parseSeg, splitFirst_append_head '=' _ _
    (not_mem_quotePlusChars '=' (by decide) (by decide) (by decide) (by decide) (by decide) _)]
  show (String.mk (unquotePlusChars (quotePlusChars k.data)),
        String.mk (unquotePlusChars (quotePlusChars v.data))) = (k, v)
  rw [unquote_quote, unquote_quote]

theorem parse_qsl_urlencode (d : List (String × String)) :
    parse_qsl (urlencode d) = d := by
  cases d with
  | nil => rfl
  | cons kv rest =>
    rw [parse_qsl, urlencode]
    rw [show (String.mk (intercalateChar '&'
        ((kv :: rest).map (fun kv => quotePlusChars kv.1.data ++ '=' :: quotePlusChars kv.2.data)))).data
        = intercalateChar '&'
        ((kv :: rest).map (fun kv => quotePlusChars kv.1.data ++ '=' :: quotePlusChars kv.2.data))
        from rfl]
    rw [splitOnChar_intercalateChar '&' _ (by simp) (by
      intro s hs
      rcases List.mem_map.mp hs with ⟨p, _, hseg⟩
      rw [← hseg]
      intro hm
      rcases List.mem_append.mp hm with hk | hv
      · exact not_mem_quotePlusChars '&' (by decide) (by decide) (by decide) (by decide)
          (by decide) _ hk
      · rcases List.mem_cons.mp hv with he | hv2
        · exact absurd he (by decide)
        · exact not_mem_quotePlusChars '&' (by decide) (by decide) (by decide) (by decide)
            (by decide) _ hv2)]
    rw [List.filter_eq_self.mpr (by
      intro s hs
      rcases List.mem_map.mp hs with ⟨p, _, hseg⟩
      rw [← hseg]
      cases hq : quotePlusChars p.1.data with
      | nil => rfl
      | cons a t => rfl)]
    rw [List.map_map]
    have : (parseSeg ∘ fun kv => quotePlusChars kv.1.data ++ '=' :: quotePlusChars kv.2.data)
        = id := by
      funext p
      show parseSeg (quotePlusChars p.1.data ++ '=' :: quotePlusChars p.2.data) = p
      rw [parseSeg_encoded]
    rw [this, List.map_id]

theorem dictInsert_cons_eq (k2 v2 k v : String) (rest : List (String × String)) (h : k2 = k) :
    dictInsert ((k2, v2) :: rest) k v = (k2, v) :: rest := by
  simp [dictInsert, h]

theorem dictInsert_cons_ne (k2 v2 k v : String) (rest : List (String × String)) (h : ¬k2 = k) :
    dictInsert ((k2, v2) :: rest) k v = (k2, v2) :: dictInsert rest k v := by
  simp [dictInsert, h]

theorem dictInsert_of_keys_not_mem (k : String) (v : String) :
    ∀ (d : List (String × String)), k ∉ d.map Prod.fst → dictInsert d k v = d ++ [(k, v)] := by
  intro d
  induction d with
  | nil => intro _; rfl
  | cons kv rest ih =>
    intro h
    obtain ⟨k2, v2⟩ := kv
    have hk : ¬ k2 = k := by intro e; exact h (by simp [e])
    rw [dictInsert_cons_ne k2 v2 k v rest hk, ih (fun hm => h (by simp [hm]))]
    rfl

theorem mem_keys_dictInsert (k v a : String) :
    ∀ (d : List (String × String)),
      (a ∈ (dictInsert d k v).map Prod.fst ↔ a ∈ d.map Prod.fst ∨ a = k) := by
  intro d
  induction d with
  | nil => simp [dictInsert]
  | cons kv rest ih =>
    obtain ⟨k2, v2⟩ := kv
    by_cases hk : k2 = k
    · rw [dictInsert_cons_eq k2 v2 k v rest hk]
      simp only [List.map_cons, List.mem_cons]
      subst hk
      tauto
    · rw [dictInsert_cons_ne k2 v2 k v rest hk]
      simp only [List.map_cons, List.mem_cons]
      rw [ih]
      tauto

theorem nodup_keys_dictInsert (k v : String) :
    ∀ (d : List (String × String)), (d.map Prod.fst).Nodup →
      ((dictInsert d k v).map Prod.fst).Nodup := by
  intro d
  induction d with
  | nil => intro _; simp [dictInsert]
  | cons kv rest ih =>
    intro h
    obtain ⟨k2, v2⟩ := kv
    simp only [List.map_cons, List.nodup_cons] at h
    by_cases hk : k2 = k
    · rw [dictInsert_cons_eq k2 v2 k v rest hk]
      simp only [List.map_cons, List.nodup_cons]
      exact h
    · rw [dictInsert_cons_ne k2 v2 k v rest hk]
      simp only [List.map_cons, List.nodup_cons]
      refine ⟨?_, ih h.2⟩
      intro hm
      rcases (mem_keys_dictInsert k v k2 rest).mp hm with hm2 | he
      · exact h.1 hm2
      · exact hk he

theorem mem_dictInsert_nodup (k0 v0 k v : String) :
    ∀ (d : List (String × String)), (d.map Prod.fst).Nodup →
      ((k, v) ∈ dictInsert d k0 v0 ↔ ((k, v) ∈ d ∧ k ≠ k0) ∨ (k = k0 ∧ v = v0)) := by
  intro d
  induction d with
  | nil =>
    intro _
    simp [dictInsert, Prod.mk.injEq]
  | cons kv rest ih =>
    intro h
    obtain ⟨k2, v2⟩ := kv
    simp only [List.map_cons, List.nodup_cons] at h
    have hrest := ih h.2
    by_cases hk : k2 = k0
    · rw [dictInsert_cons_eq k2 v2 k0 v0 rest hk]
      simp only [List.mem_cons, Prod.mk.injEq]
      constructor
      · intro hm
        rcases hm with ⟨he1, he2⟩ | hm2
        · exact Or.inr ⟨he1.trans hk, he2⟩
        · have hkne : k ≠ k0 := by
            intro e
            apply h.1
            rw [hk, ← e]
            exact List.mem_map_of_mem Prod.fst hm2
          exact Or.inl ⟨Or.inr hm2, hkne⟩
      · intro hm
        rcases hm with ⟨hm2, hne⟩ | ⟨he1, he2⟩
        · rcases hm2 with ⟨he1, _⟩ | hm3
          · exact absurd (he1.trans hk) hne
          · exact Or.inr hm3
        · exact Or.inl ⟨he1.trans hk.symm, he2⟩
    · rw [dictInsert_cons_ne k2 v2 k0 v0 rest hk]
      simp only [List.mem_cons, Prod.mk.injEq]
      rw [hrest]
      constructor
      · intro hm
        rcases hm with ⟨he1, he2⟩ | hm2
        · refine Or.inl ⟨Or.inl ⟨he1, he2⟩, ?_⟩
          intro e
          exact hk (by rw [← he1, e])
        · tauto
      · intro hm
        tauto

theorem mem_dictInsert_weak (k0 v0 k v : String) :
    ∀ (d : List (String × String)), (k, v) ∈ dictInsert d k0 v0 → (k, v) ∈ d ∨ k = k0 := by
  intro d
  induction d with
  | nil => intro h; simp [dictInsert] at h; exact Or.inr h.1
  | cons kv rest ih =>
    intro h
    obtain ⟨k2, v2⟩ := kv
    by_cases hk : k2 = k0
    · rw [dictInsert_cons_eq k2 v2 k0 v0 rest hk] at h
      rcases List.mem_cons.mp h with he | hm
      · right
        simp only [Prod.mk.injEq] at he
        exact he.1.trans hk
      · exact Or.inl (List.mem_cons_of_mem _ hm)
    · rw [dictInsert_cons_ne k2 v2 k0 v0 rest hk] at h
      rcases List.mem_cons.mp h with he | hm
      · exact Or.inl (by simp [he])
      · rcases ih hm with hm2 | he
        · exact Or.inl (List.mem_cons_of_mem _ hm2)
        · exact Or.inr he

theorem dictInsert_idem (k v : String) :
    ∀ (d : List (String × String)), dictInsert (dictInsert d k v) k v = dictInsert d k v := by
  intro d
  induction d with
  | nil =>
    show dictInsert [(k, v)] k v = [(k, v)]
    rw [dictInsert_cons_eq k v k v [] rfl]
  | cons kv rest ih =>
    obtain ⟨k2, v2⟩ := kv
    by_cases hk : k2 = k
    · rw [dictInsert_cons_eq k2 v2 k v rest hk, dictInsert_cons_eq k2 v k v rest hk]
    · rw [dictInsert_cons_ne k2 v2 k v rest hk, dictInsert_cons_ne k2 v2 k v _ hk, ih]

theorem dictFold_append :
    ∀ (q d : List (String × String)), (q.map Prod.fst).Nodup →
      (∀ a ∈ q.map Prod.fst, a ∉ d.map Prod.fst) →
      q.foldl (fun d kv => dictInsert d kv.1 kv.2) d = d ++ q := by
  intro q
  induction q with
  | nil => intro d _ _; simp
  | cons kv rest ih =>
    intro d h hdisj
    obtain ⟨k, v⟩ := kv
    simp only [List.map_cons, List.nodup_cons] at h
    rw [List.foldl_cons]
    rw [show dictInsert d (k, v).1 (k, v).2 = d ++ [(k, v)] from
      dictInsert_of_keys_not_mem k v d (hdisj k (by simp))]
    rw [ih (d ++ [(k, v)]) h.2 (by
      intro a ha
      rw [List.map_append]
      intro hm
      rcases List.mem_append.mp hm with hm2 | hm3
      · exact hdisj a (by simp [ha]) hm2
      · simp at hm3
        exact h.1 (by rw [← hm3]; exact ha))]
    simp

theorem dictOfPairs_eq_self (q : List (String × String)) (h : (q.map Prod.fst).Nodup) :
    dictOfPairs q = q := by
  rw [dictOfPairs, dictFold_append q [] h (by simp)]
  rfl

theorem dictFold_nodup_keys :
    ∀ (q d : List (String × String)), (d.map Prod.fst).Nodup →
      ((q.foldl (fun d kv => dictInsert d kv.1 kv.2) d).map Prod.fst).Nodup := by
  intro q
  induction q with
  | nil => intro d h; simpa using h
  | cons kv rest ih =>
    intro d h
    rw [List.foldl_cons]
    exact ih _ (nodup_keys_dictInsert kv.1 kv.2 d h)

theorem nodup_keys_dictOfPairs (q : List (String × String)) :
    ((dictOfPairs q).map Prod.fst).Nodup := by
  rw [dictOfPairs]
  exact dictFold_nodup_keys q [] (by simp)

theorem nodup_keys_dropDenied (d : List (String × String)) (h : (d.map Prod.fst).Nodup) :
    ((dropDenied d).map Prod.fst).Nodup :=
  List.Nodup.sublist (List.Sublist.map Prod.fst (List.filter_sublist d)) h

theorem dropDenied_dictInsert_start (d : List (String × String)) :
    dropDenied (dictInsert (dropDenied d) "start" "0") = dictInsert (dropDenied d) "start" "0" := by
  rw [dropDenied, List.filter_eq_self]
  intro kv hm
  obtain ⟨a, b⟩ := kv
  rcases mem_dictInsert_weak "start" "0" a b (dropDenied d) hm with hm2 | he
  · rw [dropDenied] at hm2
    exact (List.mem_filter.mp hm2).2
  · rw [he]
    show (!(drop_keys.contains "start")) = true
    decide

theorem normalize_query_fixed (d : List (String × String)) :
    dictInsert (dropDenied (dictOfPairs
        (dictInsert (dropDenied (dictOfPairs d)) "start" "0"))) "start" "0"
      = dictInsert (dropDenied (dictOfPairs d)) "start" "0" := by
  have h1 : ((dictInsert (dropDenied (dictOfPairs d)) "start" "0").map Prod.fst).Nodup :=
    nodup_keys_dictInsert _ _ _ (nodup_keys_dropDenied _ (nodup_keys_dictOfPairs d))
  rw [dictOfPairs_eq_self _ h1, dropDenied_dictInsert_start, dictInsert_idem]

theorem schemeSplit_slash (w : List Char) : schemeSplit ('/' :: w) = ([], '/' :: w) := by
  cases hsp : splitFirst ':' ('/' :: w) with
  | none => simp [schemeSplit, hsp]
  | some ab =>
    obtain ⟨a, b⟩ := ab
    obtain ⟨hw, _⟩ := splitFirst_some_spec ':' _ a b hsp
    have ha : validScheme a = false := by
      cases a with
      | nil =>
        rw [List.nil_append] at hw
        injection hw with h1 _
        exact absurd h1 (by decide)
      | cons x t =>
        rw [List.cons_append] at hw
        injection hw with h1 _
        rw [← h1]
        have : isAsciiAlpha '/' = false := by decide
        simp [validScheme, this]
    simp [schemeSplit, hsp, ha]

theorem schemeSplit_valid (s w : List Char) (hv : validScheme s = true) :
    schemeSplit (s ++ ':' :: w) = (s.map asciiLowerChar, w) := by
  have hns : ':' ∉ s := colon_not_mem_of_validScheme s hv
  have hsp := splitFirst_append_head ':' s w hns
  simp [schemeSplit, hsp, hv]

theorem schemeSplit_fst_spec (u : List Char) :
    (schemeSplit u).1 = [] ∨
      (validScheme (schemeSplit u).1 = true ∧
       (schemeSplit u).1.map asciiLowerChar = (schemeSplit u).1) := by
  cases hsp : splitFirst ':' u with
  | none => left; simp [schemeSplit, hsp]
  | some ab =>
    obtain ⟨a, b⟩ := ab
    by_cases hv : validScheme a = true
    · right
      have he : schemeSplit u = (a.map asciiLowerChar, b) := by simp [schemeSplit, hsp, hv]
      rw [he]
      exact ⟨validScheme_lower a hv, map_asciiLowerChar_idem a⟩
    · left
      simp [schemeSplit, hsp, hv]

theorem netlocSplit_slash2 (rr : List Char) :
    netlocSplit ('/' :: '/' :: rr) = (rr.takeWhile notNetlocEnd, rr.dropWhile notNetlocEnd) := rfl

theorem netlocSplit_fst_all (r : List Char) : ∀ c ∈ (netlocSplit r).1, notNetlocEnd c = true := by
  rw [netlocSplit.eq_def]
  split
  · intro c hc
    exact List.mem_takeWhile_imp hc
  · intro c hc
    simp at hc

theorem netlocSplit_cases (r : List Char) :
    netlocSplit r = (([] : List Char), r) ∨
      ∃ rr, r = '/' :: '/' :: rr ∧
        netlocSplit r = (rr.takeWhile notNetlocEnd, rr.dropWhile notNetlocEnd) := by
  rw [netlocSplit.eq_def]
  split
  · rename_i rr
    right
    exact ⟨rr, rfl, rfl⟩
  · left
    rfl

theorem fragSplit_no (r : List Char) (h : '#' ∉ r) : fragSplit r = (r, []) := by
  simp [fragSplit, splitFirst_eq_none '#' r h]

theorem fragSplit_marker (a b : List Char) (h : '#' ∉ a) : fragSplit (a ++ '#' :: b) = (a, b) := by
  simp [fragSplit, splitFirst_append_head '#' a b h]

theorem querySplit_no (r : List Char) (h : '?' ∉ r) : querySplit r = (r, []) := by
  simp [querySplit, splitFirst_eq_none '?' r h]

theorem querySplit_marker (a b : List Char) (h : '?' ∉ a) :
    querySplit (a ++ '?' :: b) = (a, b) := by
  simp [querySplit, splitFirst_append_head '?' a b h]

theorem fragSplit_fst_cons (y : Char) (t : List Char) (hy : y ≠ '#') :
    fragSplit (y :: t) = (y :: (fragSplit t).1, (fragSplit t).2) := by
  cases hsp : splitFirst '#' t with
  | none =>
    have h2 : splitFirst '#' (y :: t) = none := by
      simp [splitFirst, show ¬ y = '#' from hy, hsp]
    simp [fragSplit, h2, hsp]
  | some ab =>
    obtain ⟨a, b⟩ := ab
    have h2 : splitFirst '#' (y :: t) = some (y :: a, b) := by
      simp [splitFirst, show ¬ y = '#' from hy, hsp]
    simp [fragSplit, h2, hsp]

theorem querySplit_fst_cons (y : Char) (t : List Char) (hy : y ≠ '?') :
    querySplit (y :: t) = (y :: (querySplit t).1, (querySplit t).2) := by
  cases hsp : splitFirst '?' t with
  | none =>
    have h2 : splitFirst '?' (y :: t) = none := by
      simp [splitFirst, show ¬ y = '?' from hy, hsp]
    simp [querySplit, h2, hsp]
  | some ab =>
    obtain ⟨a, b⟩ := ab
    have h2 : splitFirst '?' (y :: t) = some (y :: a, b) := by
      simp [splitFirst, show ¬ y = '?' from hy, hsp]
    simp [querySplit, h2, hsp]

theorem fragSplit_fst_not_mem (r : List Char) : '#' ∉ (fragSplit r).1 := by
  cases hsp : splitFirst '#' r with
  | none =>
    have := splitFirst_none_not_mem '#' r hsp
    simpa [fragSplit, hsp] using this
  | some ab =>
    obtain ⟨a, b⟩ := ab
    have := (splitFirst_some_spec '#' r a b hsp).2
    simpa [fragSplit, hsp] using this

theorem querySplit_fst_not_mem (r : List Char) : '?' ∉ (querySplit r).1 := by
  cases hsp : splitFirst '?' r with
  | none =>
    have := splitFirst_none_not_mem '?' r hsp
    simpa [querySplit, hsp] using this
  | some ab =>
    obtain ⟨a, b⟩ := ab
    have := (splitFirst_some_spec '?' r a b hsp).2
    simpa [querySplit, hsp] using this

theorem querySplit_fst_subset (r : List Char) : ∀ c ∈ (querySplit r).1, c ∈ r := by
  cases hsp : splitFirst '?' r with
  | none =>
    intro c hc
    simpa [querySplit, hsp] using hc
  | some ab =>
    obtain ⟨a, b⟩ := ab
    intro c hc
    rw [(splitFirst_some_spec '?' r a b hsp).1]
    simp [querySplit, hsp] at hc
    simp [hc]

theorem urlunsplit_split_roundtrip (p : UrlParts)
    (hn0 : p.netloc ≠ [])
    (hscheme : p.scheme = [] ∨ (validScheme p.scheme = true ∧
      p.scheme.map asciiLowerChar = p.scheme))
    (hnet : ∀ c ∈ p.netloc, notNetlocEnd c = true)
    (hpath : p.path = [] ∨ ∃ t, p.path = '/' :: t)
    (hpq : '?' ∉ p.path) (hpf : '#' ∉ p.path)
    (hqf : '#' ∉ p.query) :
    urlsplitChars (urlunsplitChars p) = p := by
  obtain ⟨s, n, pa, q, f⟩ := p
  dsimp only at hn0 hscheme hnet hpath hpq hpf hqf
  have hpa' : (if pa ≠ [] ∧ pa.head? ≠ some '/' then '/' :: pa else pa) = pa := by
    rcases hpath with he | ⟨t, he⟩ <;> simp [he]
  have hu : urlunsplitChars ⟨s, n, pa, q, f⟩ =
      (if s ≠ [] then s ++ ':' :: ('/' :: '/' :: (n ++ pa)) else '/' :: '/' :: (n ++ pa))
        ++ (if q ≠ [] then '?' :: q else [])
        ++ (if f ≠ [] then '#' :: f else []) := by
    rw [urlunsplitChars]
    dsimp only
    rw [if_pos (Or.inl hn0), hpa']
    by_cases hs : s = [] <;> by_cases hq : q = [] <;> by_cases hf : f = [] <;>
      simp [hs, hq, hf]
  have hQPf : '#' ∉ (if q ≠ [] then '?' :: q else []) := by
    by_cases hq : q ≠ []
    · rw [if_pos hq]
      intro hm
      rcases List.mem_cons.mp hm with he | hm2
      · exact absurd he (by decide)
      · exact hqf hm2
    · rw [if_neg hq]
      simp
  have hPQf : '#' ∉ pa ++ (if q ≠ [] then '?' :: q else []) := by
    intro hm
    rcases List.mem_append.mp hm with h1 | h2
    · exact hpf h1
    · exact hQPf h2
  have hfrag : fragSplit (pa ++ (if q ≠ [] then '?' :: q else [])
        ++ (if f ≠ [] then '#' :: f else [])) =
      (pa ++ (if q ≠ [] then '?' :: q else []), f) := by
    by_cases hf : f = []
    · subst hf
      rw [if_neg (by simp : ¬(([] : List Char) ≠ [])), List.append_nil, fragSplit_no _ hPQf]
    · rw [if_pos hf]
      exact fragSplit_marker _ f hPQf
  have hquery : querySplit (pa ++ (if q ≠ [] then '?' :: q else [])) = (pa, q) := by
    by_cases hq : q = []
    · subst hq
      rw [if_neg (by simp : ¬(([] : List Char) ≠ [])), List.append_nil, querySplit_no _ hpq]
    · rw [if_pos hq]
      exact querySplit_marker _ q hpq
  have hys : (pa ++ (if q ≠ [] then '?' :: q else []) ++ (if f ≠ [] then '#' :: f else [])) = []
      ∨ ∃ y t2, (pa ++ (if q ≠ [] then '?' :: q else [])
          ++ (if f ≠ [] then '#' :: f else [])) = y :: t2 ∧ notNetlocEnd y = false := by
    rcases hpath with hpe | ⟨t, hpe⟩
    · by_cases hq : q = []
      · by_cases hf : f = []
        · left
          simp [hpe, hq, hf]
        · right
          refine ⟨'#', f, ?_, by decide⟩
          simp [hpe, hq, hf]
      · right
        refine ⟨'?', q ++ (if f ≠ [] then '#' :: f else []), ?_, by decide⟩
        simp [hpe, hq]
    · right
      refine ⟨'/', t ++ (if q ≠ [] then '?' :: q else [])
        ++ (if f ≠ [] then '#' :: f else []), ?_, by decide⟩
      simp [hpe]
  have hB : netlocSplit ('/' :: '/' :: (n ++ (pa ++ (if q ≠ [] then '?' :: q else [])
        ++ (if f ≠ [] then '#' :: f else [])))) =
      (n, pa ++ (if q ≠ [] then '?' :: q else []) ++ (if f ≠ [] then '#' :: f else [])) := by
    rw [netlocSplit_slash2]
    have hsplit := takeWhile_append_stop notNetlocEnd n _ hnet hys
    rw [hsplit.1, hsplit.2]
  rcases hscheme with hse | ⟨hv, hfix⟩
  · have hsw : urlunsplitChars ⟨s, n, pa, q, f⟩ =
        '/' :: '/' :: (n ++ (pa ++ (if q ≠ [] then '?' :: q else [])
          ++ (if f ≠ [] then '#' :: f else []))) := by
      rw [hu, if_neg (fun hne => hne hse)]
      simp [List.append_assoc]
    rw [hsw]
    rw [urlsplitChars]
    rw [show schemeSplit ('/' :: '/' :: (n ++ (pa ++ (if q ≠ [] then '?' :: q else [])
        ++ (if f ≠ [] then '#' :: f else [])))) = ([], '/' :: '/' :: (n ++ (pa
        ++ (if q ≠ [] then '?' :: q else []) ++ (if f ≠ [] then '#' :: f else []))))
      from schemeSplit_slash _]
    dsimp only
    rw [hB]
    dsimp only
    rw [hfrag]
    dsimp only
    rw [hquery]
    rw [hse]
  · have hsne : s ≠ [] := by
      intro he
      rw [he] at hv
      simp [validScheme] at hv
    have hsw : urlunsplitChars ⟨s, n, pa, q, f⟩ =
        s ++ ':' :: ('/' :: '/' :: (n ++ (pa ++ (if q ≠ [] then '?' :: q else [])
          ++ (if f ≠ [] then '#' :: f else [])))) := by
      rw [hu, if_pos hsne]
      simp [List.append_assoc]
    rw [hsw]
    rw [urlsplitChars]
    rw [schemeSplit_valid s _ hv, hfix]
    dsimp only
    rw [hB]
    dsimp only
    rw [hfrag]
    dsimp only
    rw [hquery]

theorem urlsplit_scheme_spec (u : List Char) :
    (urlsplitChars u).scheme = [] ∨
      (validScheme (urlsplitChars u).scheme = true ∧
       (urlsplitChars u).scheme.map asciiLowerChar = (urlsplitChars u).scheme) :=
  schemeSplit_fst_spec u

theorem urlsplit_netloc_chars (u : List Char) :
    ∀ c ∈ (urlsplitChars u).netloc, notNetlocEnd c = true :=
  netlocSplit_fst_all (schemeSplit u).2

theorem urlsplit_path_no_query_mark (u : List Char) : '?' ∉ (urlsplitChars u).path :=
  querySplit_fst_not_mem (fragSplit (netlocSplit (schemeSplit u).2).2).1

theorem urlsplit_path_no_frag_mark (u : List Char) : '#' ∉ (urlsplitChars u).path := by
  intro hm
  exact fragSplit_fst_not_mem (netlocSplit (schemeSplit u).2).2
    (querySplit_fst_subset (fragSplit (netlocSplit (schemeSplit u).2).2).1 '#' hm)

theorem urlsplit_path_slash (u : List Char) (hn : (urlsplitChars u).netloc ≠ []) :
    (urlsplitChars u).path = [] ∨ ∃ t, (urlsplitChars u).path = '/' :: t := by
  rcases netlocSplit_cases (schemeSplit u).2 with hcase | ⟨rr, _, hcase⟩
  · exfalso
    apply hn
    show (netlocSplit (schemeSplit u).2).1 = []
    rw [hcase]
  · show (querySplit (fragSplit (netlocSplit (schemeSplit u).2).2).1).1 = [] ∨
      ∃ t, (querySplit (fragSplit (netlocSplit (schemeSplit u).2).2).1).1 = '/' :: t
    rw [hcase]
    dsimp only
    rcases dropWhile_head_prop notNetlocEnd rr with hbe | ⟨y, t, hbe, hy⟩
    · rw [hbe]
      left
      rfl
    · rw [hbe]
      have hy3 : y = '/' ∨ y = '?' ∨ y = '#' := by
        have := hy
        simp only [notNetlocEnd, Bool.not_eq_false', Bool.or_eq_true, decide_eq_true_eq] at this
        tauto
      rcases hy3 with he | he | he
      · subst he
        rw [fragSplit_fst_cons '/' t (by decide)]
        dsimp only
        rw [querySplit_fst_cons '/' _ (by decide)]
        right
        exact ⟨_, rfl⟩
      · subst he
        rw [fragSplit_fst_cons '?' t (by decide)]
        dsimp only
        have h2 : querySplit ('?' :: (fragSplit t).1) = ([], (fragSplit t).1) := by
          simp [querySplit, splitFirst]
        rw [h2]
        left
        rfl
      · subst he
        have h1 : fragSplit ('#' :: t) = ([], t) := by
          simp [fragSplit, splitFirst]
        rw [h1]
        left
        rfl

theorem frag_not_mem_urlencode (d : List (String × String)) : '#' ∉ (urlencode d).data :=
  not_mem_urlencode '#' (by decide) (by decide) (by decide)
    (fun m hm => (hexDigitChar_not_special m hm).2.2.1) (by decide) (by decide) (by decide) d

theorem normalize_split (url : String) (hn : (urlsplitChars url.data).netloc ≠ []) :
    urlsplitChars (normalize_search_url url).data =
      ⟨(urlsplitChars url.data).scheme, (urlsplitChars url.data).netloc,
       (urlsplitChars url.data).path,
       (urlencode (dictInsert (dropDenied (dictOfPairs
         (parse_qsl (String.mk (urlsplitChars url.data).query)))) "start" "0")).data,
       (urlsplitChars url.data).fragment⟩ := by
  have hnorm : (normalize_search_url url).data =
      urlunsplitChars ⟨(urlsplitChars url.data).scheme, (urlsplitChars url.data).netloc,
        (urlsplitChars url.data).path,
        (urlencode (dictInsert (dropDenied (dictOfPairs
          (parse_qsl (String.mk (urlsplitChars url.data).query)))) "start" "0")).data,
        (urlsplitChars url.data).fragment⟩ := rfl
  rw [hnorm]
  apply urlunsplit_split_roundtrip
  · exact hn
  · exact urlsplit_scheme_spec url.data
  · exact urlsplit_netloc_chars url.data
  · exact urlsplit_path_slash url.data hn
  · exact urlsplit_path_no_query_mark url.data
  · exact urlsplit_path_no_frag_mark url.data
  · exact frag_not_mem_urlencode _

theorem mem_dropDenied (d : List (String × String)) (k v : String) :
    ((k, v) ∈ dropDenied d) ↔ ((k, v) ∈ d ∧ k ∉ drop_keys) := by
  rw [dropDenied, List.mem_filter]
  constructor
  · intro h
    refine ⟨h.1, ?_⟩
    intro hm
    have h2 := h.2
    simp only [Bool.not_eq_true'] at h2
    exact absurd ((List.elem_iff.mpr hm).symm.trans h2) (by decide)
  · intro h
    refine ⟨h.1, ?_⟩
    show (!drop_keys.contains k) = true
    simp only [Bool.not_eq_true']
    cases hcc : drop_keys.contains k with
    | false => rfl
    | true => exact absurd (List.elem_iff.mp hcc) h.2

/-- C8 counterexample: the claim says every non-deny-listed query parameter is
preserved verbatim, but `_normalize_search_url` routes the pairs through
`dict(parse_qsl(...))`, which keeps only the last value of a repeated key:
for `?f_C=1&f_C=2` the pair `("f_C", "1")` is present in the input query and
absent from the normalized URL. -/
theorem C8_duplicate_param_collapsed :
    ("f_C", "1") ∈ parse_qsl (String.mk
        (urlsplitChars ("https://www.linkedin.com/jobs/search/?f_C=1&f_C=2").data).query) ∧
    "f_C" ∉ drop_keys ∧
    normalize_search_url "https://www.linkedin.com/jobs/search/?f_C=1&f_C=2"
      = "https://www.linkedin.com/jobs/search/?f_C=2&start=0" := by
  refine ⟨by decide, by decide, by decide⟩

/-- C8 (amended): for every URL whose split has a nonempty netloc (every real
LinkedIn search URL) and whose query carries no repeated parameter key,
`_normalize_search_url` leaves scheme, netloc, path and fragment unchanged,
and its output query holds exactly the input pairs whose key is neither
deny-listed nor `start`, plus the forced pair `("start", "0")`. -/
theorem C8_normalize_param_transform (url : String)
    (hn : (urlsplitChars url.data).netloc ≠ [])
    (hnodup : ((parse_qsl (String.mk (urlsplitChars url.data).query)).map Prod.fst).Nodup) :
    (urlsplitChars (normalize_search_url url).data).scheme = (urlsplitChars url.data).scheme ∧
    (urlsplitChars (normalize_search_url url).data).netloc = (urlsplitChars url.data).netloc ∧
    (urlsplitChars (normalize_search_url url).data).path = (urlsplitChars url.data).path ∧
    (urlsplitChars (normalize_search_url url).data).fragment
      = (urlsplitChars url.data).fragment ∧
    (∀ k v : String,
      (k, v) ∈ parse_qsl (String.mk (urlsplitChars (normalize_search_url url).data).query) ↔
        (((k, v) ∈ parse_qsl (String.mk (urlsplitChars url.data).query) ∧
          k ∉ drop_keys ∧ k ≠ "start") ∨ (k = "start" ∧ v = "0"))) := by
  have hsplit := normalize_split url hn
  refine ⟨by rw [hsplit], by rw [hsplit], by rw [hsplit], by rw [hsplit], ?_⟩
  intro k v
  rw [hsplit]
  show (k, v) ∈ parse_qsl (String.mk (urlencode (dictInsert (dropDenied (dictOfPairs
      (parse_qsl (String.mk (urlsplitChars url.data).query)))) "start" "0")).data) ↔ _
  rw [show String.mk (urlencode (dictInsert (dropDenied (dictOfPairs
      (parse_qsl (String.mk (urlsplitChars url.data).query)))) "start" "0")).data
    = urlencode (dictInsert (dropDenied (dictOfPairs
      (parse_qsl (String.mk (urlsplitChars url.data).query)))) "start" "0") from rfl]
  rw [parse_qsl_urlencode]
  rw [dictOfPairs_eq_self _ hnodup]
  rw [mem_dictInsert_nodup "start" "0" k v _ (nodup_keys_dropDenied _ hnodup)]
  rw [mem_dropDenied]
  tauto

/-- C8 witness: a LinkedIn search URL with two distinct filter keys satisfies
both hypotheses and the amended transform. -/
theorem C8_param_transform_witness :
    ((urlsplitChars ("https://www.linkedin.com/jobs/search/?f_C=123&trackingId=abc").data).netloc
        ≠ [] ∧
      ((parse_qsl (String.mk (urlsplitChars
        ("https://www.linkedin.com/jobs/search/?f_C=123&trackingId=abc").data).query)).map
        Prod.fst).Nodup) ∧
    ((urlsplitChars (normalize_search_url
        "https://www.linkedin.com/jobs/search/?f_C=123&trackingId=abc").data).scheme
      = (urlsplitChars ("https://www.linkedin.com/jobs/search/?f_C=123&trackingId=abc").data).scheme ∧
    (urlsplitChars (normalize_search_url
        "https://www.linkedin.com/jobs/search/?f_C=123&trackingId=abc").data).netloc
      = (urlsplitChars ("https://www.linkedin.com/jobs/search/?f_C=123&trackingId=abc").data).netloc ∧
    (urlsplitChars (normalize_search_url
        "https://www.linkedin.com/jobs/search/?f_C=123&trackingId=abc").data).path
      = (urlsplitChars ("https://www.linkedin.com/jobs/search/?f_C=123&trackingId=abc").data).path ∧
    (urlsplitChars (normalize_search_url
        "https://www.linkedin.com/jobs/search/?f_C=123&trackingId=abc").data).fragment
      = (urlsplitChars ("https://www.linkedin.com/jobs/search/?f_C=123&trackingId=abc").data).fragment ∧
    (∀ k v : String,
      (k, v) ∈ parse_qsl (String.mk (urlsplitChars (normalize_search_url
          "https://www.linkedin.com/jobs/search/?f_C=123&trackingId=abc").data).query) ↔
        (((k, v) ∈ parse_qsl (String.mk (urlsplitChars
            ("https://www.linkedin.com/jobs/search/?f_C=123&trackingId=abc").data).query) ∧
          k ∉ drop_keys ∧ k ≠ "start") ∨ (k = "start" ∧ v = "0")))) :=
  ⟨⟨by decide, by decide⟩,
   C8_normalize_param_transform "https://www.linkedin.com/jobs/search/?f_C=123&trackingId=abc"
     (by decide) (by decide)⟩

/-- C9 counterexample: normalization is not idempotent on every string.  For
`x://///y` the first pass yields `x:///y?start=0` (empty netloc dropped, the
path `///y` kept), and the second pass re-reads `//` + `/y`, collapsing the
path to `/y`: the outputs differ. -/
theorem C9_not_idempotent_in_general :
    normalize_search_url (normalize_search_url "x://///y")
      ≠ normalize_search_url "x://///y" := by decide

/-- C9 (amended): on every URL whose split has a nonempty netloc — every real
LinkedIn search URL — `_normalize_search_url` is idempotent: a second pass
reproduces the first pass's output exactly. -/
theorem C9_normalize_idempotent_on_netloc (url : String)
    (hn : (urlsplitChars url.data).netloc ≠ []) :
    normalize_search_url (normalize_search_url url) = normalize_search_url url := by
  have h1 : normalize_search_url (normalize_search_url url) =
      String.mk (urlunsplitChars
        ⟨(urlsplitChars (normalize_search_url url).data).scheme,
         (urlsplitChars (normalize_search_url url).data).netloc,
         (urlsplitChars (normalize_search_url url).data).path,
         (urlencode (dictInsert (dropDenied (dictOfPairs (parse_qsl (String.mk
           (urlsplitChars (normalize_search_url url).data).query)))) "start" "0")).data,
         (urlsplitChars (normalize_search_url url).data).fragment⟩) := rfl
  rw [h1, normalize_split url hn]
  show String.mk (urlunsplitChars
      ⟨(urlsplitChars url.data).scheme, (urlsplitChars url.data).netloc,
       (urlsplitChars url.data).path,
       (urlencode (dictInsert (dropDenied (dictOfPairs (parse_qsl (String.mk
         (urlencode (dictInsert (dropDenied (dictOfPairs (parse_qsl (String.mk
           (urlsplitChars url.data).query)))) "start" "0")).data)))) "start" "0")).data,
       (urlsplitChars url.data).fragment⟩) = normalize_search_url url
  rw [show String.mk (urlencode (dictInsert (dropDenied (dictOfPairs (parse_qsl (String.mk
      (urlsplitChars url.data).query)))) "start" "0")).data
    = urlencode (dictInsert (dropDenied (dictOfPairs (parse_qsl (String.mk
      (urlsplitChars url.data).query)))) "start" "0") from rfl]
  rw [parse_qsl_urlencode, normalize_query_fixed]
  rfl

/-- C9 witness: a LinkedIn search URL has a nonempty netloc and normalizing it
twice equals normalizing it once. -/
theorem C9_idempotent_witness :
    (urlsplitChars ("https://www.linkedin.com/jobs/search/?f_C=9&start=50").data).netloc ≠ [] ∧
    normalize_search_url (normalize_search_url
        "https://www.linkedin.com/jobs/search/?f_C=9&start=50")
      = normalize_search_url "https://www.linkedin.com/jobs/search/?f_C=9&start=50" :=
  ⟨by decide,
   C9_normalize_idempotent_on_netloc "https://www.linkedin.com/jobs/search/?f_C=9&start=50"
     (by decide)⟩
